import Mathlib

/-!
Shallow embedding of the numerical core of the `fps` repository
(capped-simplex projection, ADMM solver, block scatter maps) together
with proofs of the specified properties.

Conventions: `double` values are embedded as exact rationals (`ℚ`) in the
simplex projector, whose algorithm uses only field arithmetic and
comparisons, and as real numbers (`ℝ`) in the ADMM solver, whose residual
computation takes square roots.  Vectors and (flattened) matrices are
embedded as lists of scalars; a block matrix is a list of such lists.
-/

namespace FPS

/-! ## Capped-simplex projector, from `src/simplex.cpp` -/

/-- One summand of the loop body of `simplex_sum` in `simplex.cpp`:
after `z -= theta`, add `1` if `z > 1`, else add `z` if `z > 0`. -/
def ssumTerm (theta z : ℚ) : ℚ :=
  if 1 < z - theta then 1 else if 0 < z - theta then z - theta else 0

/-- Embedding of `simplex_sum(x, theta)`: the fold of `ssumTerm` over the
vector, i.e. the piecewise-linear function f(θ) = Σᵢ clip(xᵢ-θ, 0, 1). -/
def simplex_sum (x : List ℚ) (theta : ℚ) : ℚ :=
  x.foldl (fun y z => y + ssumTerm theta z) 0

/-- The clipped value produced by the `transform` lambda in `simplex`:
after `d -= theta`, clamp to `1` from above and to `0` from below. -/
def clipEntry (theta v : ℚ) : ℚ :=
  if 1 < v - theta then 1 else if v - theta < 0 then 0 else v - theta

/-- Insertion of one value into a sorted duplicate-free list, used to embed
`unique(join_vert(x - 1.0, x))` (armadillo `unique` returns the sorted
distinct values in ascending order). -/
def insertKnot (t : ℚ) : List ℚ → List ℚ
  | [] => [t]
  | a :: l => if t < a then t :: a :: l else if t = a then a :: l else a :: insertKnot t l

/-- Embedding of `knots = unique(join_vert(x - 1.0, x))`: the ascending,
duplicate-free list of the values `xᵢ - 1` and `xᵢ`. -/
def knots (x : List ℚ) : List ℚ :=
  (List.map (fun v => v - 1) x ++ x).foldr insertKnot []

/-- Embedding of
`std::lower_bound(knots.begin(), knots.end(), d, simplex_compare(x))`:
the index of the left-most knot `t` failing the comparator
`simplex_sum(x, t) >= d`, i.e. the number of leading knots satisfying it
(the knot range is partitioned for this predicate because `simplex_sum`
is antitone and the knots are sorted). -/
def lbIdx (x : List ℚ) (d : ℚ) : List ℚ → ℕ
  | [] => 0
  | t :: l => if d ≤ simplex_sum x t then lbIdx x d l + 1 else 0

/-- The interpolated breakpoint computed by `simplex` from the bracketing
knots `a = t[-1]`, `b = t[0]`:  `theta = a + (b-a) * (d-fa) / (fb-fa)`.
Out-of-range reads (which claim C7 rules out under the preconditions)
default to `0`. -/
def simplexTheta (x : List ℚ) (d : ℚ) : ℚ :=
  let ks := knots x
  let i := lbIdx x d ks
  let a := ks.getD (i - 1) 0
  let b := ks.getD i 0
  let fa := simplex_sum x a
  let fb := simplex_sum x b
  a + (b - a) * (d - fa) / (fb - fa)

/-- Embedding of `simplex(x, d, interior)` from `simplex.cpp`.  Returns the
overwritten vector together with the returned `rank`; the `transform`
lambda increments `rank` exactly at the entries whose shifted value is not
negative (the `d < 0.0` branch returns early, every other path falls
through to `++rank`). -/
def simplex (x : List ℚ) (d : ℚ) (interior : Bool) : List ℚ × ℕ :=
  if interior ∧ simplex_sum x 0 ≤ d then
    (x.map (clipEntry 0), x.countP (fun v => decide (0 ≤ v)))
  else
    let theta := simplexTheta x d
    (x.map (clipEntry theta), x.countP (fun v => decide (0 ≤ v - theta)))

/-! ## Basic lemmas about the clip function and `simplex_sum` -/

theorem ssumTerm_eq_clipEntry (theta v : ℚ) : ssumTerm theta v = clipEntry theta v := by
  unfold ssumTerm clipEntry
  split_ifs with h1 h2 h3 h4 <;> linarith

theorem clipEntry_nonneg (theta v : ℚ) : 0 ≤ clipEntry theta v := by
  unfold clipEntry; split_ifs <;> linarith

theorem clipEntry_le_one (theta v : ℚ) : clipEntry theta v ≤ 1 := by
  unfold clipEntry; split_ifs <;> linarith

theorem clipEntry_of_nonpos (theta v : ℚ) (h : v - theta ≤ 0) : clipEntry theta v = 0 := by
  unfold clipEntry; split_ifs <;> linarith

theorem clipEntry_of_ge_one (theta v : ℚ) (h : 1 ≤ v - theta) : clipEntry theta v = 1 := by
  unfold clipEntry; split_ifs <;> linarith

theorem clipEntry_of_mem (theta v : ℚ) (h0 : 0 ≤ v - theta) (h1 : v - theta ≤ 1) :
    clipEntry theta v = v - theta := by
  unfold clipEntry; split_ifs <;> linarith

theorem clipEntry_eq_clip (theta v : ℚ) :
    clipEntry theta v = max 0 (min 1 (v - theta)) := by
  unfold clipEntry
  rcases le_total (v - theta) 0 with h | h
  · rw [min_eq_right (by linarith), max_eq_left h]
    split_ifs <;> linarith
  · rcases le_total (v - theta) 1 with h1 | h1
    · rw [min_eq_right h1, max_eq_right h]
      split_ifs <;> linarith
    · rw [min_eq_left h1, max_eq_right (by norm_num)]
      split_ifs <;> linarith

theorem clipEntry_anti (v : ℚ) {t1 t2 : ℚ} (h : t1 ≤ t2) :
    clipEntry t2 v ≤ clipEntry t1 v := by
  unfold clipEntry; split_ifs <;> linarith

theorem foldl_add_eq_sum_map (g : ℚ → ℚ) :
    ∀ (l : List ℚ) (c : ℚ), l.foldl (fun y z => y + g z) c = c + (l.map g).sum := by
  intro l
  induction l with
  | nil => intro c; simp
  | cons a l ih => intro c; simp [List.foldl_cons, ih (c + g a)]; ring

theorem simplex_sum_eq_sum_map (x : List ℚ) (theta : ℚ) :
    simplex_sum x theta = (x.map (fun v => clipEntry theta v)).sum := by
  unfold simplex_sum
  rw [foldl_add_eq_sum_map, zero_add]
  congr 1
  exact List.map_congr_left (fun v _ => ssumTerm_eq_clipEntry theta v)

theorem sum_map_le_sum_map (x : List ℚ) (g h : ℚ → ℚ) (hle : ∀ v ∈ x, g v ≤ h v) :
    (x.map g).sum ≤ (x.map h).sum := by
  induction x with
  | nil => simp
  | cons a l ih =>
      simp only [List.map_cons, List.sum_cons]
      have h1 := hle a (List.mem_cons_self a l)
      have h2 := ih (fun v hv => hle v (List.mem_cons_of_mem a hv))
      linarith

theorem simplex_sum_anti (x : List ℚ) {t1 t2 : ℚ} (h : t1 ≤ t2) :
    simplex_sum x t2 ≤ simplex_sum x t1 := by
  rw [simplex_sum_eq_sum_map, simplex_sum_eq_sum_map]
  exact sum_map_le_sum_map x _ _ (fun v _ => clipEntry_anti v h)

theorem map_eq_of_le_of_sum_eq (x : List ℚ) (g h : ℚ → ℚ)
    (hle : ∀ v ∈ x, g v ≤ h v) (hsum : (x.map g).sum = (x.map h).sum) :
    x.map g = x.map h := by
  induction x with
  | nil => simp
  | cons a l ih =>
      simp only [List.map_cons, List.sum_cons] at hsum ⊢
      have h1 := hle a (List.mem_cons_self a l)
      have h2 := sum_map_le_sum_map l g h (fun v hv => hle v (List.mem_cons_of_mem a hv))
      have hga : g a = h a := by linarith
      rw [hga] at hsum ⊢
      rw [ih (fun v hv => hle v (List.mem_cons_of_mem a hv)) (by linarith)]

/-! ## Knot list lemmas -/

theorem mem_insertKnot (t s : ℚ) (l : List ℚ) :
    s ∈ insertKnot t l ↔ s = t ∨ s ∈ l := by
  induction l with
  | nil => simp [insertKnot]
  | cons a l ih =>
      unfold insertKnot
      split_ifs with h1 h2
      · simp [List.mem_cons]
      · subst h2; simp only [List.mem_cons]; tauto
      · simp only [List.mem_cons, ih]; tauto

theorem sorted_insertKnot (t : ℚ) (l : List ℚ) (hs : l.Sorted (· < ·)) :
    (insertKnot t l).Sorted (· < ·) := by
  induction l with
  | nil => simp [insertKnot]
  | cons a l ih =>
      rw [List.sorted_cons] at hs
      unfold insertKnot
      split_ifs with h1 h2
      · rw [List.sorted_cons]
        refine ⟨?_, by rw [List.sorted_cons]; exact ⟨hs.1, hs.2⟩⟩
        intro b hb
        rcases List.mem_cons.mp hb with rfl | hb
        · exact h1
        · exact lt_trans h1 (hs.1 b hb)
      · rw [List.sorted_cons]; exact ⟨hs.1, hs.2⟩
      · rw [List.sorted_cons]
        refine ⟨?_, ih hs.2⟩
        intro b hb
        rcases (mem_insertKnot t b l).mp hb with rfl | hb
        · exact lt_of_le_of_ne (not_lt.mp h1) (fun he => h2 he.symm)
        · exact hs.1 b hb

theorem sorted_foldr_insertKnot (l : List ℚ) :
    (l.foldr insertKnot []).Sorted (· < ·) := by
  induction l with
  | nil => simp
  | cons a l ih => exact sorted_insertKnot a _ ih

theorem mem_foldr_insertKnot (l : List ℚ) (s : ℚ) :
    s ∈ l.foldr insertKnot [] ↔ s ∈ l := by
  induction l with
  | nil => simp
  | cons a l ih =>
      simp only [List.foldr_cons, mem_insertKnot, List.mem_cons, ih]

theorem sorted_knots (x : List ℚ) : (knots x).Sorted (· < ·) :=
  sorted_foldr_insertKnot _

theorem mem_knots (x : List ℚ) (s : ℚ) :
    s ∈ knots x ↔ (∃ v ∈ x, v - 1 = s) ∨ s ∈ x := by
  unfold knots
  rw [mem_foldr_insertKnot, List.mem_append, List.mem_map]

/-! ## Sorted-list index lemmas -/

theorem sorted_getD_lt (l : List ℚ) (hs : l.Sorted (· < ·)) {i j : ℕ}
    (hij : i < j) (hj : j < l.length) : l.getD i 0 < l.getD j 0 := by
  have hi : i < l.length := lt_trans hij hj
  rw [List.getD_eq_getElem l 0 hi, List.getD_eq_getElem l 0 hj]
  exact List.pairwise_iff_getElem.mp hs i j hi hj hij

theorem sorted_head_le (l : List ℚ) (hs : l.Sorted (· < ·)) (s : ℚ) (h : s ∈ l) :
    l.getD 0 0 ≤ s := by
  obtain ⟨p, hp, rfl⟩ := List.mem_iff_getElem.mp h
  rcases Nat.eq_zero_or_pos p with rfl | hpos
  · rw [List.getD_eq_getElem l 0 hp]
  · rw [List.getD_eq_getElem l 0 (lt_of_le_of_lt (Nat.zero_le p) hp)]
    exact le_of_lt (List.pairwise_iff_getElem.mp hs 0 p _ hp hpos)

theorem sorted_le_getLast (l : List ℚ) (hs : l.Sorted (· < ·)) (s : ℚ) (h : s ∈ l) :
    s ≤ l.getD (l.length - 1) 0 := by
  obtain ⟨p, hp, rfl⟩ := List.mem_iff_getElem.mp h
  have hlast : l.length - 1 < l.length := by omega
  rcases Nat.lt_or_ge p (l.length - 1) with hlt | hge
  · rw [List.getD_eq_getElem l 0 hlast]
    exact le_of_lt (List.pairwise_iff_getElem.mp hs p (l.length - 1) hp hlast hlt)
  · have : p = l.length - 1 := by omega
    subst this
    rw [List.getD_eq_getElem l 0 hlast]

theorem no_elem_between (l : List ℚ) (hs : l.Sorted (· < ·)) {i : ℕ}
    (h1 : 1 ≤ i) (hi : i < l.length) (s : ℚ) (hmem : s ∈ l) :
    s ≤ l.getD (i - 1) 0 ∨ l.getD i 0 ≤ s := by
  obtain ⟨p, hp, rfl⟩ := List.mem_iff_getElem.mp hmem
  rcases Nat.lt_or_ge p i with hlt | hge
  · left
    have hi1 : i - 1 < l.length := by omega
    rcases Nat.lt_or_ge p (i - 1) with h2 | h2
    · rw [List.getD_eq_getElem l 0 hi1]
      exact le_of_lt (List.pairwise_iff_getElem.mp hs p (i - 1) hp hi1 h2)
    · have : p = i - 1 := by omega
      subst this
      rw [List.getD_eq_getElem l 0 hi1]
  · right
    rcases Nat.lt_or_ge i p with h2 | h2
    · rw [List.getD_eq_getElem l 0 hi]
      exact le_of_lt (List.pairwise_iff_getElem.mp hs i p hi hp h2)
    · have : p = i := by omega
      subst this
      rw [List.getD_eq_getElem l 0 hi]

/-! ## Lower-bound search lemmas -/

theorem lbIdx_le_length (x : List ℚ) (d : ℚ) (l : List ℚ) :
    lbIdx x d l ≤ l.length := by
  induction l with
  | nil => simp [lbIdx]
  | cons t l ih =>
      unfold lbIdx
      split_ifs <;> simp <;> omega

theorem lbIdx_pos (x : List ℚ) (d : ℚ) (l : List ℚ) (hne : l ≠ [])
    (h : d ≤ simplex_sum x (l.getD 0 0)) : 1 ≤ lbIdx x d l := by
  cases l with
  | nil => exact absurd rfl hne
  | cons t l =>
      unfold lbIdx
      rw [List.getD_cons_zero] at h
      simp [h]

theorem lbIdx_pred_holds (x : List ℚ) (d : ℚ) :
    ∀ (l : List ℚ) (j : ℕ), j < lbIdx x d l → d ≤ simplex_sum x (l.getD j 0) := by
  intro l
  induction l with
  | nil => intro j hj; simp [lbIdx] at hj
  | cons t l ih =>
      intro j hj
      unfold lbIdx at hj
      split_ifs at hj with h
      · cases j with
        | zero => simpa using h
        | succ j => exact ih j (by omega)
      · omega

theorem lbIdx_pred_fails (x : List ℚ) (d : ℚ) :
    ∀ (l : List ℚ), lbIdx x d l < l.length →
      simplex_sum x (l.getD (lbIdx x d l) 0) < d := by
  intro l
  induction l with
  | nil => intro h; simp [lbIdx] at h
  | cons t l ih =>
      intro h
      unfold lbIdx at h ⊢
      split_ifs at h ⊢ with hc
      · simpa using ih (by simpa using h)
      · simpa using lt_of_not_le hc

theorem lbIdx_lt_length (x : List ℚ) (d : ℚ) :
    ∀ (l : List ℚ) (t : ℚ), t ∈ l → simplex_sum x t < d → lbIdx x d l < l.length := by
  intro l
  induction l with
  | nil => intro t ht; simp at ht
  | cons a l ih =>
      intro t ht hft
      unfold lbIdx
      split_ifs with h
      · rcases List.mem_cons.mp ht with rfl | ht2
        · exact absurd h (not_le.mpr hft)
        · simpa using ih t ht2 hft
      · simp

/-! ## Values of `simplex_sum` at the extreme knots -/

theorem sum_map_const_one (x : List ℚ) : (x.map (fun _ => (1:ℚ))).sum = x.length := by
  induction x with
  | nil => simp
  | cons a l ih => simp [ih]; ring

theorem simplex_sum_at_head_knot (x : List ℚ) (hx : x ≠ []) :
    simplex_sum x ((knots x).getD 0 0) = x.length := by
  rw [simplex_sum_eq_sum_map]
  have hclip : ∀ v ∈ x, clipEntry ((knots x).getD 0 0) v = 1 := by
    intro v hv
    have hmem : v - 1 ∈ knots x := (mem_knots x (v - 1)).mpr (Or.inl ⟨v, hv, rfl⟩)
    have hle := sorted_head_le (knots x) (sorted_knots x) (v - 1) hmem
    exact clipEntry_of_ge_one _ v (by linarith)
  rw [List.map_congr_left hclip]
  exact sum_map_const_one x

theorem simplex_sum_at_last_knot (x : List ℚ) :
    simplex_sum x ((knots x).getD ((knots x).length - 1) 0) = 0 := by
  rw [simplex_sum_eq_sum_map]
  have hclip : ∀ v ∈ x, clipEntry ((knots x).getD ((knots x).length - 1) 0) v = 0 := by
    intro v hv
    have hmem : v ∈ knots x := (mem_knots x v).mpr (Or.inr hv)
    have hle := sorted_le_getLast (knots x) (sorted_knots x) v hmem
    exact clipEntry_of_nonpos _ v (by linarith)
  rw [List.map_congr_left hclip]
  simp

theorem last_knot_mem (x : List ℚ) (hx : x ≠ []) :
    (knots x).getD ((knots x).length - 1) 0 ∈ knots x := by
  have hne : knots x ≠ [] := by
    obtain ⟨v, hv⟩ := List.exists_mem_of_ne_nil x hx
    exact List.ne_nil_of_mem ((mem_knots x v).mpr (Or.inr hv))
  have hlen : 0 < (knots x).length := List.length_pos.mpr hne
  have h : (knots x).length - 1 < (knots x).length := by omega
  rw [List.getD_eq_getElem _ 0 h]
  exact List.getElem_mem h

/-- Bracketing data for the breakpoint search of `simplex`: under
`0 < d < n`, the lower-bound index is at least `1` and strictly inside the
knot list, the bracketing knots are distinct, and the function values at
the bracket endpoints satisfy `f(a) ≥ d > f(b)`. -/
theorem simplex_bracket (x : List ℚ) (d : ℚ) (hd : 0 < d) (hn : d < (x.length : ℚ)) :
    1 ≤ lbIdx x d (knots x) ∧ lbIdx x d (knots x) < (knots x).length ∧
    (knots x).getD (lbIdx x d (knots x) - 1) 0 < (knots x).getD (lbIdx x d (knots x)) 0 ∧
    d ≤ simplex_sum x ((knots x).getD (lbIdx x d (knots x) - 1) 0) ∧
    simplex_sum x ((knots x).getD (lbIdx x d (knots x)) 0) < d := by
  have hx : x ≠ [] := by
    intro h
    subst h
    simp at hn
    linarith
  have hne : knots x ≠ [] := by
    obtain ⟨v, hv⟩ := List.exists_mem_of_ne_nil x hx
    exact List.ne_nil_of_mem ((mem_knots x v).mpr (Or.inr hv))
  have h1 : 1 ≤ lbIdx x d (knots x) := by
    apply lbIdx_pos x d (knots x) hne
    rw [simplex_sum_at_head_knot x hx]
    exact le_of_lt hn
  have h2 : lbIdx x d (knots x) < (knots x).length := by
    apply lbIdx_lt_length x d (knots x) _ (last_knot_mem x hx)
    rw [simplex_sum_at_last_knot x]
    exact hd
  refine ⟨h1, h2, ?_, ?_, ?_⟩
  · exact sorted_getD_lt (knots x) (sorted_knots x) (by omega) h2
  · exact lbIdx_pred_holds x d (knots x) _ (by omega)
  · exact lbIdx_pred_fails x d (knots x) h2

/-! ## Affine interpolation on a bracketing interval -/

theorem clip_affine_pair (a b theta v : ℚ) (hv : v ≤ a ∨ b ≤ v)
    (hv1 : v - 1 ≤ a ∨ b ≤ v - 1) (hta : a ≤ theta) (htb : theta ≤ b) :
    (b - a) * clipEntry theta v =
      (b - theta) * clipEntry a v + (theta - a) * clipEntry b v := by
  have hab : a ≤ b := le_trans hta htb
  rcases hv with hva | hvb
  · rw [clipEntry_of_nonpos theta v (by linarith), clipEntry_of_nonpos a v (by linarith),
      clipEntry_of_nonpos b v (by linarith)]
    ring
  · rcases hv1 with hv1a | hv1b
    · rw [clipEntry_of_mem theta v (by linarith) (by linarith),
        clipEntry_of_mem a v (by linarith) (by linarith),
        clipEntry_of_mem b v (by linarith) (by linarith)]
      ring
    · rw [clipEntry_of_ge_one theta v (by linarith), clipEntry_of_ge_one a v (by linarith),
        clipEntry_of_ge_one b v (by linarith)]
      ring

theorem simplex_sum_affine (x : List ℚ) (a b theta : ℚ)
    (hk : ∀ v ∈ x, (v ≤ a ∨ b ≤ v) ∧ (v - 1 ≤ a ∨ b ≤ v - 1))
    (hta : a ≤ theta) (htb : theta ≤ b) :
    (b - a) * simplex_sum x theta =
      (b - theta) * simplex_sum x a + (theta - a) * simplex_sum x b := by
  rw [simplex_sum_eq_sum_map, simplex_sum_eq_sum_map, simplex_sum_eq_sum_map]
  induction x with
  | nil => simp
  | cons v l ih =>
      simp only [List.map_cons, List.sum_cons]
      have hv := hk v (List.mem_cons_self v l)
      have hl := ih (fun w hw => hk w (List.mem_cons_of_mem v hw))
      have hp := clip_affine_pair a b theta v hv.1 hv.2 hta htb
      ring_nf
      ring_nf at hp hl
      linarith

/-- Unfolding equation for `simplexTheta`. -/
theorem simplexTheta_eq (x : List ℚ) (d : ℚ) :
    simplexTheta x d =
      (knots x).getD (lbIdx x d (knots x) - 1) 0 +
      ((knots x).getD (lbIdx x d (knots x)) 0 -
        (knots x).getD (lbIdx x d (knots x) - 1) 0) *
        (d - simplex_sum x ((knots x).getD (lbIdx x d (knots x) - 1) 0)) /
        (simplex_sum x ((knots x).getD (lbIdx x d (knots x)) 0) -
          simplex_sum x ((knots x).getD (lbIdx x d (knots x) - 1) 0)) := rfl

/-- The interpolated breakpoint lies in the bracketing interval `[a, b)`. -/
theorem simplexTheta_mem (x : List ℚ) (d : ℚ) (hd : 0 < d) (hn : d < (x.length : ℚ)) :
    (knots x).getD (lbIdx x d (knots x) - 1) 0 ≤ simplexTheta x d ∧
    simplexTheta x d < (knots x).getD (lbIdx x d (knots x)) 0 := by
  obtain ⟨h1, h2, hab, hfa, hfb⟩ := simplex_bracket x d hd hn
  set a := (knots x).getD (lbIdx x d (knots x) - 1) 0 with ha
  set b := (knots x).getD (lbIdx x d (knots x)) 0 with hb
  set fa := simplex_sum x a with hfa2
  set fb := simplex_sum x b with hfb2
  have hden : fb - fa < 0 := by linarith
  have hr0 : 0 ≤ (d - fa) / (fb - fa) :=
    div_nonneg_of_nonpos (by linarith) (le_of_lt hden)
  have hr1 : (d - fa) / (fb - fa) < 1 := by
    rw [div_lt_one_iff]
    right; right
    exact ⟨hden, by linarith⟩
  rw [simplexTheta_eq, mul_div_assoc]
  constructor
  · nlinarith [mul_nonneg (le_of_lt (sub_pos.mpr hab)) hr0]
  · nlinarith [mul_lt_mul_of_pos_left hr1 (sub_pos.mpr hab)]

/-- On the bracketing interval the interpolation is exact: the piecewise
linear function attains the target value `d` at `simplexTheta x d`. -/
theorem simplex_sum_theta (x : List ℚ) (d : ℚ) (hd : 0 < d) (hn : d < (x.length : ℚ)) :
    simplex_sum x (simplexTheta x d) = d := by
  obtain ⟨h1, h2, hab, hfa, hfb⟩ := simplex_bracket x d hd hn
  obtain ⟨hta, htb⟩ := simplexTheta_mem x d hd hn
  set i := lbIdx x d (knots x) with hi
  set a := (knots x).getD (i - 1) 0 with ha
  set b := (knots x).getD i 0 with hb
  set fa := simplex_sum x a with hfa2
  set fb := simplex_sum x b with hfb2
  set r := (d - fa) / (fb - fa) with hr
  have hden : fb - fa ≠ 0 := by intro h; rw [sub_eq_zero] at h; linarith
  have hkmem : ∀ v ∈ x, (v ≤ a ∨ b ≤ v) ∧ (v - 1 ≤ a ∨ b ≤ v - 1) := by
    intro v hv
    constructor
    · exact no_elem_between (knots x) (sorted_knots x) h1 h2 v
        ((mem_knots x v).mpr (Or.inr hv))
    · exact no_elem_between (knots x) (sorted_knots x) h1 h2 (v - 1)
        ((mem_knots x (v - 1)).mpr (Or.inl ⟨v, hv, rfl⟩))
  have haff := simplex_sum_affine x a b (simplexTheta x d) hkmem hta (le_of_lt htb)
  have htheta : simplexTheta x d = a + (b - a) * r := by
    rw [simplexTheta_eq, mul_div_assoc]
  have hrmul : r * (fb - fa) = d - fa := div_mul_cancel₀ (d - fa) hden
  have hba : b - a ≠ 0 := by intro h; rw [sub_eq_zero] at h; linarith
  apply mul_left_cancel₀ hba
  rw [haff, htheta]
  ring_nf
  ring_nf at hrmul
  nlinarith [hrmul]

/-! ## Squared Euclidean distance and the minimizing property -/

/-- Squared Euclidean distance between two vectors of the same length. -/
def sqDist (u v : List ℚ) : ℚ := (List.zipWith (fun a b => (a - b) ^ 2) u v).sum

theorem sqDist_nonneg : ∀ (u v : List ℚ), 0 ≤ sqDist u v := by
  intro u
  induction u with
  | nil => intro v; simp [sqDist]
  | cons a u ih =>
      intro v
      cases v with
      | nil => simp [sqDist]
      | cons b v =>
          have h1 := ih v
          simp only [sqDist, List.zipWith_cons_cons, List.sum_cons] at h1 ⊢
          positivity

theorem sqDist_eq_zero : ∀ (u v : List ℚ), u.length = v.length →
    sqDist u v = 0 → u = v := by
  intro u
  induction u with
  | nil =>
      intro v hl _
      exact (List.length_eq_zero.mp hl.symm).symm
  | cons a u ih =>
      intro v hl h0
      cases v with
      | nil => simp at hl
      | cons b v =>
          simp only [sqDist, List.zipWith_cons_cons, List.sum_cons] at h0
          have htail : 0 ≤ sqDist u v := sqDist_nonneg u v
          have hhead : (0:ℚ) ≤ (a - b) ^ 2 := sq_nonneg _
          have hab : (a - b) ^ 2 = 0 := by
            simp only [sqDist] at htail
            linarith
          have h1 : a = b := by
            have := pow_eq_zero_iff (n := 2) (by norm_num) |>.mp hab
            linarith [sub_eq_zero.mp this]
          have h2 : u = v := by
            apply ih v (by simpa using hl)
            simp only [sqDist] at htail ⊢
            linarith
          rw [h1, h2]

/-- Pointwise decomposition of the squared distance around the clipped
projection, exhibiting the KKT cross term. -/
theorem sqDist_decomp (theta : ℚ) : ∀ (w x : List ℚ), w.length = x.length →
    sqDist w x =
      sqDist (x.map (clipEntry theta)) x + sqDist w (x.map (clipEntry theta)) +
      2 * (List.zipWith
        (fun a b => (a - clipEntry theta b) * (clipEntry theta b - b + theta)) w x).sum -
      2 * theta * (w.sum - (x.map (clipEntry theta)).sum) := by
  intro w
  induction w with
  | nil =>
      intro x hl
      have : x = [] := List.length_eq_zero.mp hl.symm
      subst this
      simp [sqDist]
  | cons a w ih =>
      intro x hl
      cases x with
      | nil => simp at hl
      | cons b x =>
          have hlen : w.length = x.length := by simpa using hl
          have htail := ih x hlen
          simp only [sqDist, List.map_cons, List.zipWith_cons_cons, List.sum_cons] at htail ⊢
          rw [htail]
          ring

theorem cross_term_nonneg (theta a b : ℚ) (h0 : 0 ≤ a) (h1 : a ≤ 1) :
    0 ≤ (a - clipEntry theta b) * (clipEntry theta b - b + theta) := by
  rcases le_or_lt (b - theta) 0 with hb0 | hb0
  · rw [clipEntry_of_nonpos theta b hb0]
    have : 0 ≤ theta - b := by linarith
    nlinarith
  · rcases le_or_lt 1 (b - theta) with hb1 | hb1
    · rw [clipEntry_of_ge_one theta b hb1]
      nlinarith
    · rw [clipEntry_of_mem theta b (le_of_lt hb0) (le_of_lt hb1)]
      have : b - theta - b + theta = 0 := by ring
      rw [this, mul_zero]

theorem cross_sum_nonneg (theta : ℚ) : ∀ (w x : List ℚ),
    (∀ a ∈ w, 0 ≤ a ∧ a ≤ 1) →
    0 ≤ (List.zipWith
      (fun a b => (a - clipEntry theta b) * (clipEntry theta b - b + theta)) w x).sum := by
  intro w
  induction w with
  | nil => intro x _; simp
  | cons a w ih =>
      intro x hb
      cases x with
      | nil => simp
      | cons b x =>
          simp only [List.zipWith_cons_cons, List.sum_cons]
          have h1 := hb a (List.mem_cons_self a w)
          have h2 := ih x (fun v hv => hb v (List.mem_cons_of_mem a hv))
          have h3 := cross_term_nonneg theta a b h1.1 h1.2
          linarith

/-- The clipped vector minimizes the squared distance over the capped
simplex with matching sum, uniquely. -/
theorem clip_is_min (theta : ℚ) (x w : List ℚ) (hw : w.length = x.length)
    (hwb : ∀ a ∈ w, 0 ≤ a ∧ a ≤ 1)
    (hws : w.sum = (x.map (clipEntry theta)).sum) :
    sqDist (x.map (clipEntry theta)) x ≤ sqDist w x ∧
    (sqDist w x = sqDist (x.map (clipEntry theta)) x → w = x.map (clipEntry theta)) := by
  have hdec := sqDist_decomp theta w x hw
  rw [hws, sub_self, mul_zero, sub_zero] at hdec
  have hcross := cross_sum_nonneg theta w x hwb
  have hself := sqDist_nonneg w (x.map (clipEntry theta))
  constructor
  · linarith
  · intro heq
    apply sqDist_eq_zero w (x.map (clipEntry theta)) (by simpa using hw)
    linarith

/-! ## Unfolding of `simplex` along the non-interior branch -/

theorem simplex_false_eq (x : List ℚ) (d : ℚ) :
    simplex x d false =
      (x.map (clipEntry (simplexTheta x d)),
       x.countP (fun v => decide (0 ≤ v - simplexTheta x d))) := by
  unfold simplex
  simp

theorem simplex_sum_out (x : List ℚ) (theta : ℚ) :
    (x.map (clipEntry theta)).sum = simplex_sum x theta :=
  (simplex_sum_eq_sum_map x theta).symm

/-! ## Claim theorems for the capped-simplex projector -/

/-- Claim C7: under `0 < d < n` (and `interior = false`, or the unshifted
sum exceeding `d`), the breakpoint search yields a genuine bracket: the
found knot is neither the first knot nor past the last one (so the read of
`t[-1]` is in bounds), the bracketing knots are distinct (knots are
deduplicated), and `f(a) ≥ d > f(b)`, hence `f(a) ≠ f(b)` and the
interpolation never divides by zero. -/
theorem C7_bracketing (x : List ℚ) (d : ℚ) (interior : Bool)
    (hd : 0 < d) (hn : d < (x.length : ℚ))
    (hbranch : interior = false ∨ d < simplex_sum x 0) :
    1 ≤ lbIdx x d (knots x) ∧
    lbIdx x d (knots x) < (knots x).length ∧
    (knots x).getD (lbIdx x d (knots x) - 1) 0 < (knots x).getD (lbIdx x d (knots x)) 0 ∧
    d ≤ simplex_sum x ((knots x).getD (lbIdx x d (knots x) - 1) 0) ∧
    simplex_sum x ((knots x).getD (lbIdx x d (knots x)) 0) < d ∧
    simplex_sum x ((knots x).getD (lbIdx x d (knots x) - 1) 0) ≠
      simplex_sum x ((knots x).getD (lbIdx x d (knots x)) 0) := by
  obtain ⟨h1, h2, hab, hfa, hfb⟩ := simplex_bracket x d hd hn
  exact ⟨h1, h2, hab, hfa, hfb, by intro h; rw [h] at hfa; linarith⟩

/-- Witness for C7 at the concrete input `x = [10, 0]`, `d = 1`. -/
theorem C7_bracketing_witness :
    (0:ℚ) < 1 ∧ (1:ℚ) < ((([10, 0] : List ℚ).length : ℕ) : ℚ) ∧
    (1 ≤ lbIdx [10, 0] 1 (knots [10, 0]) ∧
     lbIdx [10, 0] 1 (knots [10, 0]) < (knots [10, 0]).length ∧
     (knots [10, 0]).getD (lbIdx [10, 0] 1 (knots [10, 0]) - 1) 0 <
       (knots [10, 0]).getD (lbIdx [10, 0] 1 (knots [10, 0])) 0 ∧
     1 ≤ simplex_sum [10, 0] ((knots [10, 0]).getD (lbIdx [10, 0] 1 (knots [10, 0]) - 1) 0) ∧
     simplex_sum [10, 0] ((knots [10, 0]).getD (lbIdx [10, 0] 1 (knots [10, 0])) 0) < 1 ∧
     simplex_sum [10, 0] ((knots [10, 0]).getD (lbIdx [10, 0] 1 (knots [10, 0]) - 1) 0) ≠
       simplex_sum [10, 0] ((knots [10, 0]).getD (lbIdx [10, 0] 1 (knots [10, 0])) 0)) :=
  ⟨by norm_num, by norm_num,
    C7_bracketing [10, 0] 1 false (by norm_num) (by norm_num) (Or.inl rfl)⟩

/-- Claim C1: for `0 < d < n`, `simplex x d false` overwrites `x` with the
Euclidean projection onto the capped simplex: every entry lies in `[0,1]`,
the total sum is within `1e-9` of `d` (here: exactly `d`), and the result
is the unique minimizer of the squared distance over the feasible set,
witnessed by a shift `theta` with `zᵢ = clip(xᵢ - theta, 0, 1)`. -/
theorem C1_simplex_projection (x : List ℚ) (d : ℚ)
    (hd : 0 < d) (hn : d < (x.length : ℚ)) :
    (∀ v ∈ (simplex x d false).1, 0 ≤ v ∧ v ≤ 1) ∧
    |(simplex x d false).1.sum - d| < 1 / 1000000000 ∧
    (∃ theta : ℚ,
      (simplex x d false).1 = x.map (fun v => max 0 (min 1 (v - theta))) ∧
      ∀ w : List ℚ, w.length = x.length → (∀ v ∈ w, 0 ≤ v ∧ v ≤ 1) → w.sum = d →
        sqDist (simplex x d false).1 x ≤ sqDist w x ∧
        (sqDist w x = sqDist (simplex x d false).1 x → w = (simplex x d false).1)) := by
  rw [simplex_false_eq]
  have hsum : (x.map (clipEntry (simplexTheta x d))).sum = d := by
    rw [simplex_sum_out]
    exact simplex_sum_theta x d hd hn
  refine ⟨?_, ?_, simplexTheta x d, ?_, ?_⟩
  · intro v hv
    obtain ⟨u, _, rfl⟩ := List.mem_map.mp hv
    exact ⟨clipEntry_nonneg _ u, clipEntry_le_one _ u⟩
  · rw [hsum]
    norm_num
  · exact List.map_congr_left (fun v _ => clipEntry_eq_clip _ v)
  · intro w hwl hwb hws
    exact clip_is_min (simplexTheta x d) x w hwl hwb (by rw [hsum, hws])

/-- Witness for C1 at the concrete input `x = [10, 0]`, `d = 1`. -/
theorem C1_simplex_projection_witness :
    (0:ℚ) < 1 ∧ (1:ℚ) < ((([10, 0] : List ℚ).length : ℕ) : ℚ) ∧
    ((∀ v ∈ (simplex ([10, 0] : List ℚ) 1 false).1, 0 ≤ v ∧ v ≤ 1) ∧
     |(simplex ([10, 0] : List ℚ) 1 false).1.sum - 1| < 1 / 1000000000 ∧
     (∃ theta : ℚ,
       (simplex ([10, 0] : List ℚ) 1 false).1 =
         ([10, 0] : List ℚ).map (fun v => max 0 (min 1 (v - theta))) ∧
       ∀ w : List ℚ, w.length = ([10, 0] : List ℚ).length →
         (∀ v ∈ w, 0 ≤ v ∧ v ≤ 1) → w.sum = 1 →
         sqDist (simplex ([10, 0] : List ℚ) 1 false).1 [10, 0] ≤ sqDist w [10, 0] ∧
         (sqDist w [10, 0] = sqDist (simplex ([10, 0] : List ℚ) 1 false).1 [10, 0] →
           w = (simplex ([10, 0] : List ℚ) 1 false).1))) :=
  ⟨by norm_num, by norm_num,
    C1_simplex_projection [10, 0] 1 (by norm_num) (by norm_num)⟩

/-- Claim C9: `simplex` is idempotent on feasible input: a vector with
entries in `[0,1]` summing exactly to `d`, with `0 < d < n`, is returned
unchanged (here even exactly, not merely up to tolerance). -/
theorem C9_idempotent (x : List ℚ) (d : ℚ) (hd : 0 < d) (hn : d < (x.length : ℚ))
    (hfeas : ∀ v ∈ x, 0 ≤ v ∧ v ≤ 1) (hsum : x.sum = d) :
    (simplex x d false).1 = x := by
  rw [simplex_false_eq]
  have hclip0 : ∀ v ∈ x, clipEntry 0 v = v := by
    intro v hv
    obtain ⟨h0, h1⟩ := hfeas v hv
    rw [clipEntry_of_mem 0 v (by linarith) (by linarith)]
    ring
  have hmap0 : x.map (clipEntry 0) = x := by
    rw [List.map_congr_left hclip0]
    exact List.map_id x
  have hzero : simplex_sum x 0 = d := by
    rw [simplex_sum_eq_sum_map]
    rw [show (fun v => clipEntry 0 v) = clipEntry 0 from rfl, hmap0, hsum]
  have hth : simplex_sum x (simplexTheta x d) = d := simplex_sum_theta x d hd hn
  rcases le_total 0 (simplexTheta x d) with hpos | hneg
  · have hle : ∀ v ∈ x, clipEntry (simplexTheta x d) v ≤ clipEntry 0 v :=
      fun v _ => clipEntry_anti v hpos
    have hs2 : (x.map (clipEntry (simplexTheta x d))).sum = (x.map (clipEntry 0)).sum := by
      rw [simplex_sum_out, simplex_sum_out, hth, hzero]
    calc x.map (clipEntry (simplexTheta x d))
        = x.map (clipEntry 0) := map_eq_of_le_of_sum_eq x _ _ hle hs2
      _ = x := hmap0
  · have hle : ∀ v ∈ x, clipEntry 0 v ≤ clipEntry (simplexTheta x d) v :=
      fun v _ => clipEntry_anti v hneg
    have hs2 : (x.map (clipEntry 0)).sum = (x.map (clipEntry (simplexTheta x d))).sum := by
      rw [simplex_sum_out, simplex_sum_out, hth, hzero]
    calc x.map (clipEntry (simplexTheta x d))
        = x.map (clipEntry 0) := (map_eq_of_le_of_sum_eq x _ _ hle hs2).symm
      _ = x := hmap0

/-- Witness for C9 at the concrete feasible input `x = [1/2, 1/2]`, `d = 1`. -/
theorem C9_idempotent_witness :
    (0:ℚ) < 1 ∧ (1:ℚ) < ((([1/2, 1/2] : List ℚ).length : ℕ) : ℚ) ∧
    (∀ v ∈ ([1/2, 1/2] : List ℚ), 0 ≤ v ∧ v ≤ 1) ∧
    ([1/2, 1/2] : List ℚ).sum = 1 ∧
    (simplex ([1/2, 1/2] : List ℚ) 1 false).1 = [1/2, 1/2] :=
  ⟨by norm_num, by norm_num, by intro v hv; fin_cases hv <;> norm_num, by norm_num,
    C9_idempotent [1/2, 1/2] 1 (by norm_num) (by norm_num)
      (by intro v hv; fin_cases hv <;> norm_num) (by norm_num)⟩

/-- Counterexample to claim C6 as stated: at `x = [10, 0]`, `d = 1` the
projection is `[1, 0]`, which has no entry strictly inside `(0, 1)`, yet
`simplex` returns `1` (the entry clipped to exactly `1` is counted). -/
theorem C6_counterexample :
    (0:ℚ) < 1 ∧ (1:ℚ) < ((([10, 0] : List ℚ).length : ℕ) : ℚ) ∧
    (simplex ([10, 0] : List ℚ) 1 false).1 = [1, 0] ∧
    (simplex ([10, 0] : List ℚ) 1 false).2 = 1 ∧
    ((simplex ([10, 0] : List ℚ) 1 false).1.countP
      (fun v => decide (0 < v ∧ v < 1))) = 0 := by
  have h : simplexTheta [10, 0] 1 = 9 := by
    norm_num [simplexTheta_eq, knots, insertKnot, lbIdx, simplex_sum, ssumTerm]
  refine ⟨by norm_num, by norm_num, ?_, ?_, ?_⟩
  · norm_num [simplex, h, simplex_sum, ssumTerm, clipEntry]
  · norm_num [simplex, h, simplex_sum, ssumTerm, List.countP_cons]
  · norm_num [simplex, h, simplex_sum, ssumTerm, clipEntry, List.countP_cons]

/-- Claim C6 amended: for `0 < d < n`, the value returned by
`simplex x d false` equals the number of entries `xᵢ` with `theta ≤ xᵢ`
for the computed shift `theta` (equivalently, the entries whose projected
value was not produced by clipping from strictly below zero); entries
whose projection equals `1`, or exactly `0` with `xᵢ = theta`, are
included, so in general this differs from the number of entries strictly
inside `(0, 1)`. -/
theorem C6_amended_rank (x : List ℚ) (d : ℚ) (hd : 0 < d) (hn : d < (x.length : ℚ)) :
    ∃ theta : ℚ,
      (simplex x d false).1 = x.map (fun v => max 0 (min 1 (v - theta))) ∧
      (simplex x d false).2 = x.countP (fun v => decide (theta ≤ v)) := by
  refine ⟨simplexTheta x d, ?_, ?_⟩
  · rw [simplex_false_eq]
    exact List.map_congr_left (fun v _ => clipEntry_eq_clip _ v)
  · rw [simplex_false_eq]
    apply List.countP_congr
    intro v _
    simp [sub_nonneg]

/-- Witness for the amended C6 at the concrete input `x = [10, 0]`, `d = 1`. -/
theorem C6_amended_rank_witness :
    (0:ℚ) < 1 ∧ (1:ℚ) < ((([10, 0] : List ℚ).length : ℕ) : ℚ) ∧
    (∃ theta : ℚ,
      (simplex ([10, 0] : List ℚ) 1 false).1 =
        ([10, 0] : List ℚ).map (fun v => max 0 (min 1 (v - theta))) ∧
      (simplex ([10, 0] : List ℚ) 1 false).2 =
        ([10, 0] : List ℚ).countP (fun v => decide (theta ≤ v))) :=
  ⟨by norm_num, by norm_num, C6_amended_rank [10, 0] 1 (by norm_num) (by norm_num)⟩

/-! ## ADMM solver, from `src/admm.h`

The dense overload works on an `arma::mat`; since every operation of the
loop is elementwise or a full reduction, a dense matrix is embedded as the
list of its entries (`Mat`).  The block overload works on a `BlockMat`,
a sequence of dense blocks, embedded as a list of entry lists (`BMat`).
Real numbers are used because the residual computation takes square
roots. -/

abbrev Mat := List ℝ

abbrev BMat := List Mat

/-- Elementwise sum of two matrices. -/
def madd (A B : Mat) : Mat := List.zipWith (fun a b => a + b) A B

/-- Elementwise difference of two matrices. -/
def msub (A B : Mat) : Mat := List.zipWith (fun a b => a - b) A B

/-- Elementwise division of a matrix by a scalar. -/
noncomputable def mdiv (A : Mat) (c : ℝ) : Mat := A.map (fun a => a / c)

/-- Elementwise multiplication of a matrix by a scalar. -/
noncomputable def mmul (A : Mat) (c : ℝ) : Mat := A.map (fun a => a * c)

/-- Embedding of `arma::accu(arma::square(A))`. -/
noncomputable def accuSquare (A : Mat) : ℝ := (A.map (fun a => a ^ 2)).sum

/-- Blockwise sum. -/
def bmadd (A B : BMat) : BMat := List.zipWith madd A B

/-- Blockwise difference. -/
def bmsub (A B : BMat) : BMat := List.zipWith msub A B

/-- Blockwise division by a scalar. -/
noncomputable def bmdiv (A : BMat) (c : ℝ) : BMat := A.map (fun m => mdiv m c)

/-- Blockwise multiplication by a scalar. -/
noncomputable def bmmul (A : BMat) (c : ℝ) : BMat := A.map (fun m => mmul m c)

/-- Blockwise sum of squares, as accumulated by the block overload
(`rr += arma::accu(arma::square(...))` over the blocks). -/
noncomputable def baccuSquare (A : BMat) : ℝ := (A.map accuSquare).sum

/-- State of the dense ADMM loop between iterations: `(z, u, admm_penalty)`. -/
abbrev AdmmState := Mat × Mat × ℝ

/-- State of the block ADMM loop between iterations. -/
abbrev AdmmBState := BMat × BMat × ℝ

/-- The `x` computed by one dense iteration:
`x = z - u + (input / admm_penalty); projection(x)`. -/
noncomputable def stepX (projection : Mat → Mat) (input : Mat) (s : AdmmState) : Mat :=
  projection (madd (msub s.1 s.2.1) (mdiv input s.2.2))

/-- The `z` computed by one dense iteration:
`z = x + u; selection(z, 1.0 / admm_penalty)`. -/
noncomputable def stepZ (projection : Mat → Mat) (selection : Mat → ℝ → Mat)
    (input : Mat) (s : AdmmState) : Mat :=
  selection (madd (stepX projection input s) s.2.1) (1 / s.2.2)

/-- The `u` computed by one dense iteration: `u = u + x - z`. -/
noncomputable def stepU (projection : Mat → Mat) (selection : Mat → ℝ → Mat)
    (input : Mat) (s : AdmmState) : Mat :=
  msub (madd s.2.1 (stepX projection input s)) (stepZ projection selection input s)

/-- The primal residual norm of one dense iteration:
`rr = sqrt(accu(square(x - z)))`. -/
noncomputable def stepRR (projection : Mat → Mat) (selection : Mat → ℝ → Mat)
    (input : Mat) (s : AdmmState) : ℝ :=
  Real.sqrt (accuSquare (msub (stepX projection input s)
    (stepZ projection selection input s)))

/-- The dual residual norm of one dense iteration:
`ss = admm_penalty * sqrt(accu(square(z - z_old)))`. -/
noncomputable def stepSS (projection : Mat → Mat) (selection : Mat → ℝ → Mat)
    (input : Mat) (s : AdmmState) : ℝ :=
  s.2.2 * Real.sqrt (accuSquare (msub (stepZ projection selection input s) s.1))

/-- The convergence criterion `rr < tolerance && ss < tolerance`. -/
noncomputable def stepConv (projection : Mat → Mat) (selection : Mat → ℝ → Mat)
    (input : Mat) (tolerance : ℝ) (s : AdmmState) : Prop :=
  stepRR projection selection input s < tolerance ∧
  stepSS projection selection input s < tolerance

noncomputable instance stepConvDec (projection : Mat → Mat) (selection : Mat → ℝ → Mat)
    (input : Mat) (tolerance : ℝ) (s : AdmmState) :
    Decidable (stepConv projection selection input tolerance s) := by
  unfold stepConv
  exact And.decidable

/-- The state returned upon convergence: the freshly computed `z` and `u`;
the penalty is left untouched by the converged iteration. -/
noncomputable def stepRet (projection : Mat → Mat) (selection : Mat → ℝ → Mat)
    (input : Mat) (s : AdmmState) : AdmmState :=
  (stepZ projection selection input s, stepU projection selection input s, s.2.2)

/-- One full non-converged dense iteration including the penalty
adjustment (Boyd et al. 2010): if `rr > 10 ss` then `penalty *= adjust`
and `u /= adjust`; if `ss > 10 rr` then `penalty /= adjust` and
`u *= adjust`; otherwise unchanged. -/
noncomputable def stepT (projection : Mat → Mat) (selection : Mat → ℝ → Mat)
    (input : Mat) (adjust : ℝ) (s : AdmmState) : AdmmState :=
  if stepRR projection selection input s > 10 * stepSS projection selection input s then
    (stepZ projection selection input s,
     mdiv (stepU projection selection input s) adjust, s.2.2 * adjust)
  else if stepSS projection selection input s > 10 * stepRR projection selection input s then
    (stepZ projection selection input s,
     mmul (stepU projection selection input s) adjust, s.2.2 / adjust)
  else
    (stepZ projection selection input s, stepU projection selection input s, s.2.2)

/-- The `do { ... } while (niter++ < maxiter)` loop of the dense `admm`
overload, with the remaining number of body executions as fuel.  Exhausted
fuel corresponds to leaving the loop and returning `-1`. -/
noncomputable def admmAux (projection : Mat → Mat) (selection : Mat → ℝ → Mat)
    (input : Mat) (adjust tolerance : ℝ) :
    ℕ → ℤ → AdmmState → ℤ × AdmmState
  | 0, _, s => (-1, s)
  | fuel + 1, niter, s =>
      if stepConv projection selection input tolerance s then
        (niter, stepRet projection selection input s)
      else
        admmAux projection selection input adjust tolerance fuel (niter + 1)
          (stepT projection selection input adjust s)

/-- Embedding of the dense `admm` overload.  The do-while loop executes
its body `max maxiter 1` times unless it returns early, starting with
`niter = 1`. -/
noncomputable def admm (projection : Mat → Mat) (selection : Mat → ℝ → Mat)
    (input z u : Mat) (admm_penalty adjust : ℝ) (maxiter : ℕ) (tolerance : ℝ) :
    ℤ × AdmmState :=
  admmAux projection selection input adjust tolerance (max maxiter 1) 1
    (z, u, admm_penalty)

/-- Block counterpart of `stepX`:
`*d.x = *d.z - *d.u + (*d.input / admm_penalty)` followed by the in-place
block projection. -/
noncomputable def bstepX (projection : BMat → BMat) (input : BMat) (s : AdmmBState) : BMat :=
  projection (bmadd (bmsub s.1 s.2.1) (bmdiv input s.2.2))

/-- Block counterpart of `stepZ`. -/
noncomputable def bstepZ (projection : BMat → BMat) (selection : BMat → ℝ → BMat)
    (input : BMat) (s : AdmmBState) : BMat :=
  selection (bmadd (bstepX projection input s) s.2.1) (1 / s.2.2)

/-- Block counterpart of `stepU`: `*d.u += *d.x - *d.z` blockwise. -/
noncomputable def bstepU (projection : BMat → BMat) (selection : BMat → ℝ → BMat)
    (input : BMat) (s : AdmmBState) : BMat :=
  bmadd s.2.1 (bmsub (bstepX projection input s) (bstepZ projection selection input s))

/-- Block primal residual: the square root of the per-block accumulated
sums of squares. -/
noncomputable def bstepRR (projection : BMat → BMat) (selection : BMat → ℝ → BMat)
    (input : BMat) (s : AdmmBState) : ℝ :=
  Real.sqrt (baccuSquare (bmsub (bstepX projection input s)
    (bstepZ projection selection input s)))

/-- Block dual residual. -/
noncomputable def bstepSS (projection : BMat → BMat) (selection : BMat → ℝ → BMat)
    (input : BMat) (s : AdmmBState) : ℝ :=
  s.2.2 * Real.sqrt (baccuSquare (bmsub (bstepZ projection selection input s) s.1))

/-- Block convergence criterion. -/
noncomputable def bstepConv (projection : BMat → BMat) (selection : BMat → ℝ → BMat)
    (input : BMat) (tolerance : ℝ) (s : AdmmBState) : Prop :=
  bstepRR projection selection input s < tolerance ∧
  bstepSS projection selection input s < tolerance

noncomputable instance bstepConvDec (projection : BMat → BMat) (selection : BMat → ℝ → BMat)
    (input : BMat) (tolerance : ℝ) (s : AdmmBState) :
    Decidable (bstepConv projection selection input tolerance s) := by
  unfold bstepConv
  exact And.decidable

/-- Block state returned upon convergence. -/
noncomputable def bstepRet (projection : BMat → BMat) (selection : BMat → ℝ → BMat)
    (input : BMat) (s : AdmmBState) : AdmmBState :=
  (bstepZ projection selection input s, bstepU projection selection input s, s.2.2)

/-- Block counterpart of `stepT` (penalty adjustment rescales every block
of `u`). -/
noncomputable def bstepT (projection : BMat → BMat) (selection : BMat → ℝ → BMat)
    (input : BMat) (adjust : ℝ) (s : AdmmBState) : AdmmBState :=
  if bstepRR projection selection input s > 10 * bstepSS projection selection input s then
    (bstepZ projection selection input s,
     bmdiv (bstepU projection selection input s) adjust, s.2.2 * adjust)
  else if bstepSS projection selection input s >
      10 * bstepRR projection selection input s then
    (bstepZ projection selection input s,
     bmmul (bstepU projection selection input s) adjust, s.2.2 / adjust)
  else
    (bstepZ projection selection input s, bstepU projection selection input s, s.2.2)

/-- The loop of the `BlockMat` overload of `admm`. -/
noncomputable def admmBlockAux (projection : BMat → BMat) (selection : BMat → ℝ → BMat)
    (input : BMat) (adjust tolerance : ℝ) :
    ℕ → ℤ → AdmmBState → ℤ × AdmmBState
  | 0, _, s => (-1, s)
  | fuel + 1, niter, s =>
      if bstepConv projection selection input tolerance s then
        (niter, bstepRet projection selection input s)
      else
        admmBlockAux projection selection input adjust tolerance fuel (niter + 1)
          (bstepT projection selection input adjust s)

/-- Embedding of the `BlockMat` overload of `admm`. -/
noncomputable def admmBlock (projection : BMat → BMat) (selection : BMat → ℝ → BMat)
    (input z u : BMat) (admm_penalty adjust : ℝ) (maxiter : ℕ) (tolerance : ℝ) :
    ℤ × AdmmBState :=
  admmBlockAux projection selection input adjust tolerance (max maxiter 1) 1
    (z, u, admm_penalty)

/-! ## Elementwise algebra of the matrix embeddings -/

theorem madd_cons (a b : ℝ) (u v : Mat) : madd (a :: u) (b :: v) = (a + b) :: madd u v := rfl

theorem msub_cons (a b : ℝ) (u v : Mat) : msub (a :: u) (b :: v) = (a - b) :: msub u v := rfl

theorem madd_msub_shape : ∀ (u x z : Mat), madd u (msub x z) = msub (madd u x) z := by
  intro u
  induction u with
  | nil => intro x z; simp [madd, msub]
  | cons a u ih =>
      intro x z
      cases x with
      | nil => simp [madd, msub]
      | cons b x =>
          cases z with
          | nil => simp [madd, msub]
          | cons c z =>
              rw [msub_cons, madd_cons, madd_cons, msub_cons, ih x z]
              congr 1
              ring

/-! ## Correspondence between the dense ADMM and the single-block ADMM -/

theorem bmadd_single (A B : Mat) : bmadd [A] [B] = [madd A B] := rfl

theorem bmsub_single (A B : Mat) : bmsub [A] [B] = [msub A B] := rfl

theorem bmdiv_single (A : Mat) (c : ℝ) : bmdiv [A] c = [mdiv A c] := rfl

theorem bmmul_single (A : Mat) (c : ℝ) : bmmul [A] c = [mmul A c] := rfl

theorem baccuSquare_single (A : Mat) : baccuSquare [A] = accuSquare A := by
  simp [baccuSquare]

section SingleBlock

variable (P : Mat → Mat) (S : Mat → ℝ → Mat)
variable (Pb : BMat → BMat) (Sb : BMat → ℝ → BMat)
variable (input : Mat)

theorem bstepX_single (hP : ∀ m, Pb [m] = [P m]) (z u : Mat) (rho : ℝ) :
    bstepX Pb [input] ([z], [u], rho) = [stepX P input (z, u, rho)] := by
  unfold bstepX stepX
  rw [bmdiv_single, bmsub_single, bmadd_single, hP]

theorem bstepZ_single (hP : ∀ m, Pb [m] = [P m]) (hS : ∀ m t, Sb [m] t = [S m t])
    (z u : Mat) (rho : ℝ) :
    bstepZ Pb Sb [input] ([z], [u], rho) = [stepZ P S input (z, u, rho)] := by
  unfold bstepZ stepZ
  rw [bstepX_single P Pb input hP, bmadd_single, hS]

theorem bstepU_single (hP : ∀ m, Pb [m] = [P m]) (hS : ∀ m t, Sb [m] t = [S m t])
    (z u : Mat) (rho : ℝ) :
    bstepU Pb Sb [input] ([z], [u], rho) = [stepU P S input (z, u, rho)] := by
  unfold bstepU stepU
  rw [bstepX_single P Pb input hP, bstepZ_single P S Pb Sb input hP hS,
    bmsub_single, bmadd_single, madd_msub_shape]

theorem bstepRR_single (hP : ∀ m, Pb [m] = [P m]) (hS : ∀ m t, Sb [m] t = [S m t])
    (z u : Mat) (rho : ℝ) :
    bstepRR Pb Sb [input] ([z], [u], rho) = stepRR P S input (z, u, rho) := by
  unfold bstepRR stepRR
  rw [bstepX_single P Pb input hP, bstepZ_single P S Pb Sb input hP hS,
    bmsub_single, baccuSquare_single]

theorem bstepSS_single (hP : ∀ m, Pb [m] = [P m]) (hS : ∀ m t, Sb [m] t = [S m t])
    (z u : Mat) (rho : ℝ) :
    bstepSS Pb Sb [input] ([z], [u], rho) = stepSS P S input (z, u, rho) := by
  unfold bstepSS stepSS
  rw [bstepZ_single P S Pb Sb input hP hS, bmsub_single, baccuSquare_single]

theorem bstepConv_single (hP : ∀ m, Pb [m] = [P m]) (hS : ∀ m t, Sb [m] t = [S m t])
    (tolerance : ℝ) (z u : Mat) (rho : ℝ) :
    bstepConv Pb Sb [input] tolerance ([z], [u], rho) ↔
      stepConv P S input tolerance (z, u, rho) := by
  unfold bstepConv stepConv
  rw [bstepRR_single P S Pb Sb input hP hS, bstepSS_single P S Pb Sb input hP hS]

theorem bstepRet_single (hP : ∀ m, Pb [m] = [P m]) (hS : ∀ m t, Sb [m] t = [S m t])
    (z u : Mat) (rho : ℝ) :
    bstepRet Pb Sb [input] ([z], [u], rho) =
      ([(stepRet P S input (z, u, rho)).1],
       [(stepRet P S input (z, u, rho)).2.1],
       (stepRet P S input (z, u, rho)).2.2) := by
  unfold bstepRet stepRet
  rw [bstepZ_single P S Pb Sb input hP hS, bstepU_single P S Pb Sb input hP hS]

theorem bstepT_single (hP : ∀ m, Pb [m] = [P m]) (hS : ∀ m t, Sb [m] t = [S m t])
    (adjust : ℝ) (z u : Mat) (rho : ℝ) :
    bstepT Pb Sb [input] adjust ([z], [u], rho) =
      ([(stepT P S input adjust (z, u, rho)).1],
       [(stepT P S input adjust (z, u, rho)).2.1],
       (stepT P S input adjust (z, u, rho)).2.2) := by
  unfold bstepT stepT
  rw [bstepRR_single P S Pb Sb input hP hS, bstepSS_single P S Pb Sb input hP hS,
    bstepZ_single P S Pb Sb input hP hS, bstepU_single P S Pb Sb input hP hS,
    bmdiv_single, bmmul_single]
  split_ifs <;> rfl

theorem admmBlockAux_single (hP : ∀ m, Pb [m] = [P m]) (hS : ∀ m t, Sb [m] t = [S m t])
    (adjust tolerance : ℝ) :
    ∀ (fuel : ℕ) (niter : ℤ) (z u : Mat) (rho : ℝ),
      admmBlockAux Pb Sb [input] adjust tolerance fuel niter ([z], [u], rho) =
        ((admmAux P S input adjust tolerance fuel niter (z, u, rho)).1,
         [(admmAux P S input adjust tolerance fuel niter (z, u, rho)).2.1],
         [(admmAux P S input adjust tolerance fuel niter (z, u, rho)).2.2.1],
         (admmAux P S input adjust tolerance fuel niter (z, u, rho)).2.2.2) := by
  intro fuel
  induction fuel with
  | zero => intro niter z u rho; rfl
  | succ fuel ih =>
      intro niter z u rho
      rw [admmBlockAux, admmAux]
      by_cases hconv : stepConv P S input tolerance (z, u, rho)
      · rw [if_pos hconv,
          if_pos ((bstepConv_single P S Pb Sb input hP hS tolerance z u rho).mpr hconv),
          bstepRet_single P S Pb Sb input hP hS]
      · rw [if_neg hconv,
          if_neg (fun hb =>
            hconv ((bstepConv_single P S Pb Sb input hP hS tolerance z u rho).mp hb)),
          bstepT_single P S Pb Sb input hP hS]
        exact ih (niter + 1) _ _ _

end SingleBlock

/-- Claim C2: with matching projection and selection operators, matching
input, initial iterates and parameters, the block-matrix overload of
`admm` run on the trivial single-block partition produces exactly the
dense overload's iterates (`x`, `z`, `u`, penalty) at every stage of the
loop, and the two runs return the same iteration count and final state. -/
theorem C2_dense_block_equiv (P : Mat → Mat) (S : Mat → ℝ → Mat)
    (Pb : BMat → BMat) (Sb : BMat → ℝ → BMat)
    (hP : ∀ m, Pb [m] = [P m]) (hS : ∀ m t, Sb [m] t = [S m t])
    (input z u : Mat) (rho adjust tolerance : ℝ) (maxiter : ℕ) :
    (∀ (zz uu : Mat) (r : ℝ),
      bstepX Pb [input] ([zz], [uu], r) = [stepX P input (zz, uu, r)] ∧
      bstepZ Pb Sb [input] ([zz], [uu], r) = [stepZ P S input (zz, uu, r)] ∧
      bstepU Pb Sb [input] ([zz], [uu], r) = [stepU P S input (zz, uu, r)]) ∧
    (∀ (fuel : ℕ) (niter : ℤ) (zz uu : Mat) (r : ℝ),
      admmBlockAux Pb Sb [input] adjust tolerance fuel niter ([zz], [uu], r) =
        ((admmAux P S input adjust tolerance fuel niter (zz, uu, r)).1,
         [(admmAux P S input adjust tolerance fuel niter (zz, uu, r)).2.1],
         [(admmAux P S input adjust tolerance fuel niter (zz, uu, r)).2.2.1],
         (admmAux P S input adjust tolerance fuel niter (zz, uu, r)).2.2.2)) ∧
    admmBlock Pb Sb [input] [z] [u] rho adjust maxiter tolerance =
      ((admm P S input z u rho adjust maxiter tolerance).1,
       [(admm P S input z u rho adjust maxiter tolerance).2.1],
       [(admm P S input z u rho adjust maxiter tolerance).2.2.1],
       (admm P S input z u rho adjust maxiter tolerance).2.2.2) := by
  refine ⟨?_, ?_, ?_⟩
  · intro zz uu r
    exact ⟨bstepX_single P Pb input hP zz uu r,
      bstepZ_single P S Pb Sb input hP hS zz uu r,
      bstepU_single P S Pb Sb input hP hS zz uu r⟩
  · exact admmBlockAux_single P S Pb Sb input hP hS adjust tolerance
  · unfold admmBlock admm
    exact admmBlockAux_single P S Pb Sb input hP hS adjust tolerance _ _ z u rho

/-- Witness for C2 with identity operators on the input `[0]`, penalty 1,
adjust 2, one iteration, tolerance 1. -/
theorem C2_dense_block_equiv_witness :
    (∀ m : Mat, (fun bm : BMat => bm) [m] = [(fun mm : Mat => mm) m]) ∧
    (∀ (m : Mat) (t : ℝ),
      (fun bm : BMat => fun _ : ℝ => bm) [m] t = [(fun mm : Mat => fun _ : ℝ => mm) m t]) ∧
    admmBlock (fun bm : BMat => bm) (fun bm : BMat => fun _ : ℝ => bm)
        [[0]] [[0]] [[0]] 1 2 1 1 =
      ((admm (fun mm : Mat => mm) (fun mm : Mat => fun _ : ℝ => mm) [0] [0] [0] 1 2 1 1).1,
       [(admm (fun mm : Mat => mm) (fun mm : Mat => fun _ : ℝ => mm) [0] [0] [0] 1 2 1 1).2.1],
       [(admm (fun mm : Mat => mm) (fun mm : Mat => fun _ : ℝ => mm) [0] [0] [0] 1 2 1 1).2.2.1],
       (admm (fun mm : Mat => mm) (fun mm : Mat => fun _ : ℝ => mm) [0] [0] [0] 1 2 1 1).2.2.2) :=
  ⟨fun _ => rfl, fun _ _ => rfl,
    (C2_dense_block_equiv (fun mm : Mat => mm) (fun mm : Mat => fun _ : ℝ => mm)
      (fun bm : BMat => bm) (fun bm : BMat => fun _ : ℝ => bm)
      (fun _ => rfl) (fun _ _ => rfl) [0] [0] [0] 1 2 1 1).2.2⟩

/-! ## Residuals as Frobenius norms of differences -/

theorem accuSquare_msub : ∀ (A B : Mat),
    accuSquare (msub A B) = (List.zipWith (fun a b => (a - b) ^ 2) A B).sum := by
  intro A
  induction A with
  | nil => intro B; simp [accuSquare, msub]
  | cons a A ih =>
      intro B
      cases B with
      | nil => simp [accuSquare, msub]
      | cons b B =>
          simp only [msub, accuSquare, List.zipWith_cons_cons, List.map_cons,
            List.sum_cons] at ih ⊢
          rw [ih B]

theorem baccuSquare_bmsub : ∀ (X Z : BMat),
    baccuSquare (bmsub X Z) =
      (List.zipWith (fun xb zb => (List.zipWith (fun a b => (a - b) ^ 2) xb zb).sum) X Z).sum := by
  intro X
  induction X with
  | nil => intro Z; simp [baccuSquare, bmsub]
  | cons x X ih =>
      intro Z
      cases Z with
      | nil => simp [baccuSquare, bmsub]
      | cons z Z =>
          simp only [bmsub, baccuSquare, List.zipWith_cons_cons, List.map_cons,
            List.sum_cons] at ih ⊢
          rw [ih Z, accuSquare_msub]

/-- Claim C3: each iteration of `admm` (dense and block) performs, in
order, `x := z - u + input/rho` followed by the in-place projection,
`z := x + u` followed by the in-place selection at scale `1/rho`,
`u := u + x - z`, and then computes the primal residual
`r = ‖x - z‖` and the dual residual `s = rho * ‖z - z_old‖` as Frobenius
norms (summed over blocks in the block overload), where `z_old` is the
value of `z` at the start of the iteration; the loop then branches on
these residuals. -/
theorem C3_iteration_order (P : Mat → Mat) (S : Mat → ℝ → Mat)
    (Pb : BMat → BMat) (Sb : BMat → ℝ → BMat)
    (input : Mat) (binput : BMat) (adjust tolerance : ℝ)
    (fuel : ℕ) (niter : ℤ) :
    (∀ (z u : Mat) (rho : ℝ),
      admmAux P S input adjust tolerance (fuel + 1) niter (z, u, rho) =
        (let x := P (madd (msub z u) (mdiv input rho));
         let znew := S (madd x u) (1 / rho);
         let unew := msub (madd u x) znew;
         let r := Real.sqrt ((List.zipWith (fun a b => (a - b) ^ 2) x znew).sum);
         let s := rho * Real.sqrt ((List.zipWith (fun a b => (a - b) ^ 2) znew z).sum);
         if r < tolerance ∧ s < tolerance then (niter, znew, unew, rho)
         else admmAux P S input adjust tolerance fuel (niter + 1)
           (znew,
            if r > 10 * s then mdiv unew adjust
            else if s > 10 * r then mmul unew adjust else unew,
            if r > 10 * s then rho * adjust
            else if s > 10 * r then rho / adjust else rho))) ∧
    (∀ (z u : BMat) (rho : ℝ),
      admmBlockAux Pb Sb binput adjust tolerance (fuel + 1) niter (z, u, rho) =
        (let x := Pb (bmadd (bmsub z u) (bmdiv binput rho));
         let znew := Sb (bmadd x u) (1 / rho);
         let unew := bmadd u (bmsub x znew);
         let r := Real.sqrt ((List.zipWith
           (fun xb zb => (List.zipWith (fun a b => (a - b) ^ 2) xb zb).sum) x znew).sum);
         let s := rho * Real.sqrt ((List.zipWith
           (fun xb zb => (List.zipWith (fun a b => (a - b) ^ 2) xb zb).sum) znew z).sum);
         if r < tolerance ∧ s < tolerance then (niter, znew, unew, rho)
         else admmBlockAux Pb Sb binput adjust tolerance fuel (niter + 1)
           (znew,
            if r > 10 * s then bmdiv unew adjust
            else if s > 10 * r then bmmul unew adjust else unew,
            if r > 10 * s then rho * adjust
            else if s > 10 * r then rho / adjust else rho))) := by
  constructor
  · intro z u rho
    rw [admmAux]
    simp only [stepConv, stepRR, stepSS, stepRet, stepT, stepU, stepZ, stepX,
      accuSquare_msub]
    split_ifs <;> rfl
  · intro z u rho
    rw [admmBlockAux]
    simp only [bstepConv, bstepRR, bstepSS, bstepRet, bstepT, bstepU, bstepZ, bstepX,
      baccuSquare_bmsub]
    split_ifs <;> rfl

/-! ## Run characterization of the dense ADMM loop -/

theorem admmAux_not_conv (P : Mat → Mat) (S : Mat → ℝ → Mat)
    (input : Mat) (adjust tolerance : ℝ) :
    ∀ (fuel : ℕ) (niter : ℤ) (s : AdmmState),
      (∀ j < fuel, ¬ stepConv P S input tolerance ((stepT P S input adjust)^[j] s)) →
      admmAux P S input adjust tolerance fuel niter s =
        (-1, (stepT P S input adjust)^[fuel] s) := by
  intro fuel
  induction fuel with
  | zero => intro niter s _; rfl
  | succ fuel ih =>
      intro niter s h
      have h0 : ¬ stepConv P S input tolerance s := by
        have := h 0 (Nat.succ_pos fuel)
        simpa using this
      rw [admmAux, if_neg h0]
      rw [ih (niter + 1) (stepT P S input adjust s) (fun j hj => by
        have := h (j + 1) (by omega)
        rwa [Function.iterate_succ_apply] at this)]
      rw [← Function.iterate_succ_apply]

theorem admmAux_conv_at (P : Mat → Mat) (S : Mat → ℝ → Mat)
    (input : Mat) (adjust tolerance : ℝ) :
    ∀ (k fuel : ℕ) (niter : ℤ) (s : AdmmState), k < fuel →
      stepConv P S input tolerance ((stepT P S input adjust)^[k] s) →
      (∀ j < k, ¬ stepConv P S input tolerance ((stepT P S input adjust)^[j] s)) →
      admmAux P S input adjust tolerance fuel niter s =
        (niter + k, stepRet P S input ((stepT P S input adjust)^[k] s)) := by
  intro k
  induction k with
  | zero =>
      intro fuel niter s hk hc _
      obtain ⟨fuel2, rfl⟩ := Nat.exists_eq_succ_of_ne_zero (Nat.pos_iff_ne_zero.mp hk)
      simp only [Function.iterate_zero_apply] at hc ⊢
      rw [admmAux, if_pos hc]
      norm_num
  | succ k ih =>
      intro fuel niter s hk hc hprev
      obtain ⟨fuel2, rfl⟩ := Nat.exists_eq_succ_of_ne_zero (by omega : fuel ≠ 0)
      have h0 : ¬ stepConv P S input tolerance s := by
        have := hprev 0 (Nat.succ_pos k)
        simpa using this
      rw [admmAux, if_neg h0]
      rw [ih fuel2 (niter + 1) (stepT P S input adjust s) (by omega)
        (by rwa [← Function.iterate_succ_apply])
        (fun j hj => by
          have := hprev (j + 1) (by omega)
          rwa [Function.iterate_succ_apply] at this)]
      rw [← Function.iterate_succ_apply]
      rw [Prod.ext_iff]
      exact ⟨by push_cast; ring, rfl⟩

/-- Claim C4: the dense `admm` returns the current iteration count as soon
as both residuals drop below the tolerance at the end of an iteration
(the first convergent iteration being iteration `k + 1` when the first
`k` full iterations fail the test); if all `maxiter` iterations complete
without convergence it returns the sentinel `-1` instead of raising an
error, with `z`, `u` and the penalty holding the values computed by the
last (`maxiter`-th) full iteration. -/
theorem C4_convergence_return (P : Mat → Mat) (S : Mat → ℝ → Mat)
    (input z u : Mat) (rho adjust tolerance : ℝ) (maxiter : ℕ)
    (hmax : 1 ≤ maxiter) :
    ((∀ j < maxiter,
        ¬ stepConv P S input tolerance ((stepT P S input adjust)^[j] (z, u, rho))) →
      admm P S input z u rho adjust maxiter tolerance =
        (-1, (stepT P S input adjust)^[maxiter] (z, u, rho))) ∧
    (∀ k < maxiter,
      stepConv P S input tolerance ((stepT P S input adjust)^[k] (z, u, rho)) →
      (∀ j < k, ¬ stepConv P S input tolerance ((stepT P S input adjust)^[j] (z, u, rho))) →
      admm P S input z u rho adjust maxiter tolerance =
        ((1 + k : ℤ), stepRet P S input ((stepT P S input adjust)^[k] (z, u, rho)))) := by
  have hmx : max maxiter 1 = maxiter := Nat.max_eq_left hmax
  constructor
  · intro h
    unfold admm
    rw [hmx]
    exact admmAux_not_conv P S input adjust tolerance maxiter 1 (z, u, rho) h
  · intro k hk hc hprev
    unfold admm
    rw [hmx]
    exact admmAux_conv_at P S input adjust tolerance k maxiter 1 (z, u, rho) hk hc hprev

/-- Witness for C4 with identity operators on the input `[0]` and
`maxiter = 1`. -/
theorem C4_convergence_return_witness :
    1 ≤ 1 ∧
    (((∀ j < 1, ¬ stepConv (fun m : Mat => m) (fun m : Mat => fun _ : ℝ => m) [0] 1
        ((stepT (fun m : Mat => m) (fun m : Mat => fun _ : ℝ => m) [0] 2)^[j]
          ([0], [0], 1))) →
      admm (fun m : Mat => m) (fun m : Mat => fun _ : ℝ => m) [0] [0] [0] 1 2 1 1 =
        (-1, (stepT (fun m : Mat => m) (fun m : Mat => fun _ : ℝ => m) [0] 2)^[1]
          ([0], [0], 1))) ∧
    (∀ k < 1,
      stepConv (fun m : Mat => m) (fun m : Mat => fun _ : ℝ => m) [0] 1
        ((stepT (fun m : Mat => m) (fun m : Mat => fun _ : ℝ => m) [0] 2)^[k]
          ([0], [0], 1)) →
      (∀ j < k, ¬ stepConv (fun m : Mat => m) (fun m : Mat => fun _ : ℝ => m) [0] 1
        ((stepT (fun m : Mat => m) (fun m : Mat => fun _ : ℝ => m) [0] 2)^[j]
          ([0], [0], 1))) →
      admm (fun m : Mat => m) (fun m : Mat => fun _ : ℝ => m) [0] [0] [0] 1 2 1 1 =
        ((1 + k : ℤ), stepRet (fun m : Mat => m) (fun m : Mat => fun _ : ℝ => m) [0]
          ((stepT (fun m : Mat => m) (fun m : Mat => fun _ : ℝ => m) [0] 2)^[k]
            ([0], [0], 1))))) :=
  ⟨le_refl 1,
    C4_convergence_return (fun m : Mat => m) (fun m : Mat => fun _ : ℝ => m)
      [0] [0] [0] 1 2 1 1 (le_refl 1)⟩

/-! ## Penalty positivity -/

theorem stepT_rho_pos (P : Mat → Mat) (S : Mat → ℝ → Mat) (input : Mat)
    {adjust : ℝ} (hadj : 0 < adjust) (s : AdmmState) (hs : 0 < s.2.2) :
    0 < (stepT P S input adjust s).2.2 := by
  unfold stepT
  split_ifs
  · exact mul_pos hs hadj
  · exact div_pos hs hadj
  · exact hs

theorem stepT_iterate_rho_pos (P : Mat → Mat) (S : Mat → ℝ → Mat) (input : Mat)
    {adjust : ℝ} (hadj : 0 < adjust) (s : AdmmState) (hs : 0 < s.2.2) :
    ∀ k : ℕ, 0 < ((stepT P S input adjust)^[k] s).2.2 := by
  intro k
  induction k with
  | zero => simpa using hs
  | succ k ih =>
      rw [Function.iterate_succ_apply']
      exact stepT_rho_pos P S input hadj _ ih

theorem admmAux_rho_pos (P : Mat → Mat) (S : Mat → ℝ → Mat) (input : Mat)
    {adjust : ℝ} (tolerance : ℝ) (hadj : 0 < adjust) :
    ∀ (fuel : ℕ) (niter : ℤ) (s : AdmmState), 0 < s.2.2 →
      0 < (admmAux P S input adjust tolerance fuel niter s).2.2.2 := by
  intro fuel
  induction fuel with
  | zero => intro niter s hs; exact hs
  | succ fuel ih =>
      intro niter s hs
      rw [admmAux]
      split_ifs
      · exact hs
      · exact ih (niter + 1) _ (stepT_rho_pos P S input hadj s hs)

theorem bstepT_rho_pos (P : BMat → BMat) (S : BMat → ℝ → BMat) (input : BMat)
    {adjust : ℝ} (hadj : 0 < adjust) (s : AdmmBState) (hs : 0 < s.2.2) :
    0 < (bstepT P S input adjust s).2.2 := by
  unfold bstepT
  split_ifs
  · exact mul_pos hs hadj
  · exact div_pos hs hadj
  · exact hs

theorem bstepT_iterate_rho_pos (P : BMat → BMat) (S : BMat → ℝ → BMat) (input : BMat)
    {adjust : ℝ} (hadj : 0 < adjust) (s : AdmmBState) (hs : 0 < s.2.2) :
    ∀ k : ℕ, 0 < ((bstepT P S input adjust)^[k] s).2.2 := by
  intro k
  induction k with
  | zero => simpa using hs
  | succ k ih =>
      rw [Function.iterate_succ_apply']
      exact bstepT_rho_pos P S input hadj _ ih

theorem admmBlockAux_rho_pos (P : BMat → BMat) (S : BMat → ℝ → BMat) (input : BMat)
    {adjust : ℝ} (tolerance : ℝ) (hadj : 0 < adjust) :
    ∀ (fuel : ℕ) (niter : ℤ) (s : AdmmBState), 0 < s.2.2 →
      0 < (admmBlockAux P S input adjust tolerance fuel niter s).2.2.2 := by
  intro fuel
  induction fuel with
  | zero => intro niter s hs; exact hs
  | succ fuel ih =>
      intro niter s hs
      rw [admmBlockAux]
      split_ifs
      · exact hs
      · exact ih (niter + 1) _ (bstepT_rho_pos P S input hadj s hs)

/-- Claim C5: the penalty adaptation runs only in iterations that fail the
convergence test — a converged iteration returns with the penalty and dual
variable unadapted — and follows the rule: if `r > 10 s` the penalty is
multiplied by `adjust` and `u` divided by it; if `s > 10 r` the penalty is
divided by `adjust` and `u` multiplied by it; otherwise both are left
unchanged.  Consequently, for `adjust > 1` and any initial penalty `> 0`,
the penalty stays strictly positive after every iteration, in both the
dense and the block overload. -/
theorem C5_penalty_adaptation (P : Mat → Mat) (S : Mat → ℝ → Mat)
    (Pb : BMat → BMat) (Sb : BMat → ℝ → BMat)
    (input : Mat) (binput : BMat) (adjust tolerance : ℝ) (hadj : 1 < adjust) :
    (∀ (fuel : ℕ) (niter : ℤ) (s : AdmmState), stepConv P S input tolerance s →
      admmAux P S input adjust tolerance (fuel + 1) niter s =
        (niter, stepZ P S input s, stepU P S input s, s.2.2)) ∧
    (∀ (fuel : ℕ) (niter : ℤ) (s : AdmmState), ¬ stepConv P S input tolerance s →
      admmAux P S input adjust tolerance (fuel + 1) niter s =
        admmAux P S input adjust tolerance fuel (niter + 1)
          (if stepRR P S input s > 10 * stepSS P S input s then
            (stepZ P S input s, mdiv (stepU P S input s) adjust, s.2.2 * adjust)
           else if stepSS P S input s > 10 * stepRR P S input s then
            (stepZ P S input s, mmul (stepU P S input s) adjust, s.2.2 / adjust)
           else (stepZ P S input s, stepU P S input s, s.2.2))) ∧
    (∀ (s : AdmmState), 0 < s.2.2 →
      ∀ k : ℕ, 0 < ((stepT P S input adjust)^[k] s).2.2) ∧
    (∀ (fuel : ℕ) (niter : ℤ) (s : AdmmState), 0 < s.2.2 →
      0 < (admmAux P S input adjust tolerance fuel niter s).2.2.2) ∧
    (∀ (fuel : ℕ) (niter : ℤ) (s : AdmmBState), bstepConv Pb Sb binput tolerance s →
      admmBlockAux Pb Sb binput adjust tolerance (fuel + 1) niter s =
        (niter, bstepZ Pb Sb binput s, bstepU Pb Sb binput s, s.2.2)) ∧
    (∀ (fuel : ℕ) (niter : ℤ) (s : AdmmBState), ¬ bstepConv Pb Sb binput tolerance s →
      admmBlockAux Pb Sb binput adjust tolerance (fuel + 1) niter s =
        admmBlockAux Pb Sb binput adjust tolerance fuel (niter + 1)
          (if bstepRR Pb Sb binput s > 10 * bstepSS Pb Sb binput s then
            (bstepZ Pb Sb binput s, bmdiv (bstepU Pb Sb binput s) adjust, s.2.2 * adjust)
           else if bstepSS Pb Sb binput s > 10 * bstepRR Pb Sb binput s then
            (bstepZ Pb Sb binput s, bmmul (bstepU Pb Sb binput s) adjust, s.2.2 / adjust)
           else (bstepZ Pb Sb binput s, bstepU Pb Sb binput s, s.2.2))) ∧
    (∀ (s : AdmmBState), 0 < s.2.2 →
      ∀ k : ℕ, 0 < ((bstepT Pb Sb binput adjust)^[k] s).2.2) ∧
    (∀ (fuel : ℕ) (niter : ℤ) (s : AdmmBState), 0 < s.2.2 →
      0 < (admmBlockAux Pb Sb binput adjust tolerance fuel niter s).2.2.2) := by
  have hadj0 : 0 < adjust := lt_trans zero_lt_one hadj
  refine ⟨?_, ?_, ?_, ?_, ?_, ?_, ?_, ?_⟩
  · intro fuel niter s hc
    rw [admmAux, if_pos hc]
    rfl
  · intro fuel niter s hc
    rw [admmAux, if_neg hc]
    congr 1
  · intro s hs k
    exact stepT_iterate_rho_pos P S input hadj0 s hs k
  · intro fuel niter s hs
    exact admmAux_rho_pos P S input tolerance hadj0 fuel niter s hs
  · intro fuel niter s hc
    rw [admmBlockAux, if_pos hc]
    rfl
  · intro fuel niter s hc
    rw [admmBlockAux, if_neg hc]
    congr 1
  · intro s hs k
    exact bstepT_iterate_rho_pos Pb Sb binput hadj0 s hs k
  · intro fuel niter s hs
    exact admmBlockAux_rho_pos Pb Sb binput tolerance hadj0 fuel niter s hs

/-- Witness for C5 with identity operators, input `[0]`, `adjust = 2`. -/
theorem C5_penalty_adaptation_witness :
    (1:ℝ) < 2 ∧
    ((∀ (s : AdmmState), 0 < s.2.2 →
      ∀ k : ℕ,
        0 < ((stepT (fun m : Mat => m) (fun m : Mat => fun _ : ℝ => m) [0] 2)^[k] s).2.2) ∧
     (∀ (fuel : ℕ) (niter : ℤ) (s : AdmmState), 0 < s.2.2 →
      0 < (admmAux (fun m : Mat => m) (fun m : Mat => fun _ : ℝ => m)
        [0] 2 1 fuel niter s).2.2.2)) :=
  ⟨by norm_num,
    ⟨(C5_penalty_adaptation (fun m : Mat => m) (fun m : Mat => fun _ : ℝ => m)
        (fun bm : BMat => bm) (fun bm : BMat => fun _ : ℝ => bm)
        [0] [[0]] 2 1 (by norm_num)).2.2.1,
     (C5_penalty_adaptation (fun m : Mat => m) (fun m : Mat => fun _ : ℝ => m)
        (fun bm : BMat => bm) (fun bm : BMat => fun _ : ℝ => bm)
        [0] [[0]] 2 1 (by norm_num)).2.2.2.1⟩⟩

/-! ## Range of the returned iteration count -/

theorem admmAux_niter_range (P : Mat → Mat) (S : Mat → ℝ → Mat)
    (input : Mat) (adjust tolerance : ℝ) :
    ∀ (fuel : ℕ) (niter : ℤ) (s : AdmmState),
      (admmAux P S input adjust tolerance fuel niter s).1 = -1 ∨
      (niter ≤ (admmAux P S input adjust tolerance fuel niter s).1 ∧
       (admmAux P S input adjust tolerance fuel niter s).1 ≤ niter + fuel - 1) := by
  intro fuel
  induction fuel with
  | zero => intro niter s; left; rfl
  | succ fuel ih =>
      intro niter s
      rw [admmAux]
      split_ifs
      · right
        constructor
        · exact le_refl niter
        · push_cast
          omega
      · rcases ih (niter + 1) (stepT P S input adjust s) with h | ⟨h1, h2⟩
        · left; exact h
        · right
          constructor
          · omega
          · push_cast at h2 ⊢
            omega

theorem admmBlockAux_niter_range (P : BMat → BMat) (S : BMat → ℝ → BMat)
    (input : BMat) (adjust tolerance : ℝ) :
    ∀ (fuel : ℕ) (niter : ℤ) (s : AdmmBState),
      (admmBlockAux P S input adjust tolerance fuel niter s).1 = -1 ∨
      (niter ≤ (admmBlockAux P S input adjust tolerance fuel niter s).1 ∧
       (admmBlockAux P S input adjust tolerance fuel niter s).1 ≤ niter + fuel - 1) := by
  intro fuel
  induction fuel with
  | zero => intro niter s; left; rfl
  | succ fuel ih =>
      intro niter s
      rw [admmBlockAux]
      split_ifs
      · right
        constructor
        · exact le_refl niter
        · push_cast
          omega
      · rcases ih (niter + 1) (bstepT P S input adjust s) with h | ⟨h1, h2⟩
        · left; exact h
        · right
          constructor
          · omega
          · push_cast at h2 ⊢
            omega

/-- Claim C10: for every `maxiter ≥ 1`, both overloads of `admm` perform
one full update iteration — mutating `z` and `u` — before any convergence
check: the run is the branch on the residuals of the state produced by the
first body execution, returning the updated state with count `1` when it
already converges.  A convergent run returns a count in `[1, maxiter]` and
the non-convergence sentinel is exactly the integer `-1`. -/
theorem C10_first_iteration_and_range (P : Mat → Mat) (S : Mat → ℝ → Mat)
    (Pb : BMat → BMat) (Sb : BMat → ℝ → BMat)
    (input z u : Mat) (binput bz bu : BMat) (rho adjust tolerance : ℝ)
    (maxiter : ℕ) (hmax : 1 ≤ maxiter) :
    ((admm P S input z u rho adjust maxiter tolerance).1 = -1 ∨
     (1 ≤ (admm P S input z u rho adjust maxiter tolerance).1 ∧
      (admm P S input z u rho adjust maxiter tolerance).1 ≤ (maxiter : ℤ))) ∧
    admm P S input z u rho adjust maxiter tolerance =
      (if stepConv P S input tolerance (z, u, rho) then
        ((1 : ℤ), stepRet P S input (z, u, rho))
       else
        admmAux P S input adjust tolerance (maxiter - 1) 2
          (stepT P S input adjust (z, u, rho))) ∧
    ((admmBlock Pb Sb binput bz bu rho adjust maxiter tolerance).1 = -1 ∨
     (1 ≤ (admmBlock Pb Sb binput bz bu rho adjust maxiter tolerance).1 ∧
      (admmBlock Pb Sb binput bz bu rho adjust maxiter tolerance).1 ≤ (maxiter : ℤ))) ∧
    admmBlock Pb Sb binput bz bu rho adjust maxiter tolerance =
      (if bstepConv Pb Sb binput tolerance (bz, bu, rho) then
        ((1 : ℤ), bstepRet Pb Sb binput (bz, bu, rho))
       else
        admmBlockAux Pb Sb binput adjust tolerance (maxiter - 1) 2
          (bstepT Pb Sb binput adjust (bz, bu, rho))) := by
  have hmx : max maxiter 1 = maxiter := Nat.max_eq_left hmax
  obtain ⟨m, hm⟩ := Nat.exists_eq_add_of_le hmax
  refine ⟨?_, ?_, ?_, ?_⟩
  · unfold admm
    rw [hmx]
    rcases admmAux_niter_range P S input adjust tolerance maxiter 1 (z, u, rho)
      with h | ⟨h1, h2⟩
    · left; exact h
    · right
      exact ⟨h1, by omega⟩
  · unfold admm
    rw [hmx, hm]
    rw [show 1 + m - 1 = m by omega]
    rw [show 1 + m = m + 1 from by omega, admmAux]
    norm_num
  · unfold admmBlock
    rw [hmx]
    rcases admmBlockAux_niter_range Pb Sb binput adjust tolerance maxiter 1 (bz, bu, rho)
      with h | ⟨h1, h2⟩
    · left; exact h
    · right
      exact ⟨h1, by omega⟩
  · unfold admmBlock
    rw [hmx, hm]
    rw [show 1 + m - 1 = m by omega]
    rw [show 1 + m = m + 1 from by omega, admmBlockAux]
    norm_num

/-- Witness for C10 with identity operators on input `[0]`, `maxiter = 1`. -/
theorem C10_first_iteration_and_range_witness :
    1 ≤ 1 ∧
    (((admm (fun m : Mat => m) (fun m : Mat => fun _ : ℝ => m) [0] [0] [0] 1 2 1 1).1 = -1 ∨
      (1 ≤ (admm (fun m : Mat => m) (fun m : Mat => fun _ : ℝ => m) [0] [0] [0] 1 2 1 1).1 ∧
       (admm (fun m : Mat => m) (fun m : Mat => fun _ : ℝ => m) [0] [0] [0] 1 2 1 1).1 ≤
         ((1 : ℕ) : ℤ))) ∧
     admm (fun m : Mat => m) (fun m : Mat => fun _ : ℝ => m) [0] [0] [0] 1 2 1 1 =
       (if stepConv (fun m : Mat => m) (fun m : Mat => fun _ : ℝ => m) [0] 1 ([0], [0], 1) then
         ((1 : ℤ), stepRet (fun m : Mat => m) (fun m : Mat => fun _ : ℝ => m) [0] ([0], [0], 1))
        else
         admmAux (fun m : Mat => m) (fun m : Mat => fun _ : ℝ => m) [0] 2 1 (1 - 1) 2
           (stepT (fun m : Mat => m) (fun m : Mat => fun _ : ℝ => m) [0] 2 ([0], [0], 1))) ∧
     (((admmBlock (fun bm : BMat => bm) (fun bm : BMat => fun _ : ℝ => bm)
          [[0]] [[0]] [[0]] 1 2 1 1).1 = -1 ∨
       (1 ≤ (admmBlock (fun bm : BMat => bm) (fun bm : BMat => fun _ : ℝ => bm)
          [[0]] [[0]] [[0]] 1 2 1 1).1 ∧
        (admmBlock (fun bm : BMat => bm) (fun bm : BMat => fun _ : ℝ => bm)
          [[0]] [[0]] [[0]] 1 2 1 1).1 ≤ ((1 : ℕ) : ℤ))) ∧
      admmBlock (fun bm : BMat => bm) (fun bm : BMat => fun _ : ℝ => bm)
          [[0]] [[0]] [[0]] 1 2 1 1 =
        (if bstepConv (fun bm : BMat => bm) (fun bm : BMat => fun _ : ℝ => bm)
            [[0]] 1 ([[0]], [[0]], 1) then
          ((1 : ℤ), bstepRet (fun bm : BMat => bm) (fun bm : BMat => fun _ : ℝ => bm)
            [[0]] ([[0]], [[0]], 1))
         else
          admmBlockAux (fun bm : BMat => bm) (fun bm : BMat => fun _ : ℝ => bm)
            [[0]] 2 1 (1 - 1) 2
            (bstepT (fun bm : BMat => bm) (fun bm : BMat => fun _ : ℝ => bm)
              [[0]] 2 ([[0]], [[0]], 1))))) :=
  ⟨le_refl 1,
    C10_first_iteration_and_range (fun m : Mat => m) (fun m : Mat => fun _ : ℝ => m)
      (fun bm : BMat => bm) (fun bm : BMat => fun _ : ℝ => bm)
      [0] [0] [0] [[0]] [[0]] [[0]] 1 2 1 1 (le_refl 1)⟩

/-! ## Block scatter maps, from `src/block/map.h`

A dense matrix is embedded as a total function on index pairs (only the
entries addressed by the index sets matter for the scatter); a stored
block is a function of its local indices.  `X.submat(r, c) = B` is
armadillo submatrix assignment: it overwrites exactly the entries
`X(r(i), c(j))` with `B(i, j)` (the index vectors of a partition are
duplicate-free, which the theorems assume). -/

/-- Armadillo submatrix assignment `X.submat(rows, cols) = B`. -/
def submatAssign (X : ℕ → ℕ → ℚ) (rows cols : List ℕ) (B : ℕ → ℕ → ℚ) :
    ℕ → ℕ → ℚ :=
  fun p q =>
    if p ∈ rows ∧ q ∈ cols then B (rows.indexOf p) (cols.indexOf q) else X p q

/-- Embedding of `map::copy_to`: walk the index map in partition order and
scatter the stored blocks into the destination. -/
def copy_to (blocks : List (ℕ → ℕ → ℚ)) (indexmap : List (List ℕ × List ℕ))
    (X : ℕ → ℕ → ℚ) : ℕ → ℕ → ℚ :=
  (List.zip blocks indexmap).foldl
    (fun Xa bi => submatAssign Xa bi.2.1 bi.2.2 bi.1) X

/-- Embedding of `symmap::copy_to`: the single index set of each block is
used for both the rows and the columns. -/
def symmap_copy_to (blocks : List (ℕ → ℕ → ℚ)) (indexmap : List (List ℕ))
    (X : ℕ → ℕ → ℚ) : ℕ → ℕ → ℚ :=
  (List.zip blocks indexmap).foldl
    (fun Xa bi => submatAssign Xa bi.2 bi.2 bi.1) X

theorem submatAssign_outside (X : ℕ → ℕ → ℚ) (rows cols : List ℕ) (B : ℕ → ℕ → ℚ)
    (p q : ℕ) (h : p ∉ rows ∨ q ∉ cols) : submatAssign X rows cols B p q = X p q := by
  unfold submatAssign
  rw [if_neg]
  tauto

theorem submatAssign_at (X : ℕ → ℕ → ℚ) (rows cols : List ℕ) (B : ℕ → ℕ → ℚ)
    (hnr : rows.Nodup) (hnc : cols.Nodup) (a b : ℕ)
    (ha : a < rows.length) (hb : b < cols.length) :
    submatAssign X rows cols B (rows.getD a 0) (cols.getD b 0) = B a b := by
  unfold submatAssign
  rw [List.getD_eq_getElem rows 0 ha, List.getD_eq_getElem cols 0 hb]
  rw [if_pos ⟨List.getElem_mem ha, List.getElem_mem hb⟩]
  rw [List.indexOf_getElem hnr a ha, List.indexOf_getElem hnc b hb]

theorem copy_to_cons (B : ℕ → ℕ → ℚ) (blocks : List (ℕ → ℕ → ℚ))
    (rc : List ℕ × List ℕ) (im : List (List ℕ × List ℕ)) (X : ℕ → ℕ → ℚ) :
    copy_to (B :: blocks) (rc :: im) X =
      copy_to blocks im (submatAssign X rc.1 rc.2 B) := rfl

theorem copy_to_frame (blocks : List (ℕ → ℕ → ℚ)) :
    ∀ (im : List (List ℕ × List ℕ)) (X : ℕ → ℕ → ℚ) (p q : ℕ),
      (∀ rc ∈ im, p ∉ rc.1 ∨ q ∉ rc.2) →
      copy_to blocks im X p q = X p q := by
  induction blocks with
  | nil => intro im X p q _; cases im <;> rfl
  | cons B bs ih =>
      intro im X p q h
      cases im with
      | nil => rfl
      | cons rc im2 =>
          rw [copy_to_cons]
          rw [ih im2 _ p q (fun rc2 h2 => h rc2 (List.mem_cons_of_mem rc h2))]
          exact submatAssign_outside X rc.1 rc.2 B p q (h rc (List.mem_cons_self rc im2))

theorem copy_to_at (zeroB : ℕ → ℕ → ℚ) :
    ∀ (k : ℕ) (blocks : List (ℕ → ℕ → ℚ)) (im : List (List ℕ × List ℕ))
      (X : ℕ → ℕ → ℚ),
      k < im.length → k < blocks.length →
      (im.getD k ([], [])).1.Nodup → (im.getD k ([], [])).2.Nodup →
      im.Pairwise (fun rc1 rc2 => ∀ i, i ∈ rc1.1 → i ∉ rc2.1) →
      ∀ a b : ℕ, a < (im.getD k ([], [])).1.length → b < (im.getD k ([], [])).2.length →
        copy_to blocks im X
            ((im.getD k ([], [])).1.getD a 0) ((im.getD k ([], [])).2.getD b 0) =
          blocks.getD k zeroB a b := by
  intro k
  induction k with
  | zero =>
      intro blocks im X hkim hkb hnr hnc hdisj a b ha hb
      cases im with
      | nil => simp at hkim
      | cons rc im2 =>
          cases blocks with
          | nil => simp at hkb
          | cons B bs =>
              simp only [List.getD_cons_zero] at hnr hnc ha hb ⊢
              rw [copy_to_cons]
              rw [copy_to_frame bs im2 _ _ _ ?_]
              · exact submatAssign_at X rc.1 rc.2 B hnr hnc a b ha hb
              · intro rc2 h2
                left
                have hmem : rc.1.getD a 0 ∈ rc.1 := by
                  rw [List.getD_eq_getElem rc.1 0 ha]
                  exact List.getElem_mem ha
                exact (List.pairwise_cons.mp hdisj).1 rc2 h2 (rc.1.getD a 0) hmem
  | succ k ih =>
      intro blocks im X hkim hkb hnr hnc hdisj a b ha hb
      cases im with
      | nil => simp at hkim
      | cons rc im2 =>
          cases blocks with
          | nil => simp at hkb
          | cons B bs =>
              simp only [List.getD_cons_succ] at hnr hnc ha hb ⊢
              rw [copy_to_cons]
              exact ih bs im2 _ (by simpa using hkim) (by simpa using hkb) hnr hnc
                (List.pairwise_cons.mp hdisj).2 a b ha hb

theorem symmap_copy_to_eq : ∀ (blocks : List (ℕ → ℕ → ℚ)) (sets : List (List ℕ))
    (X : ℕ → ℕ → ℚ),
    symmap_copy_to blocks sets X = copy_to blocks (sets.map (fun s => (s, s))) X := by
  intro blocks
  induction blocks with
  | nil => intro sets X; cases sets <;> rfl
  | cons B bs ih =>
      intro sets X
      cases sets with
      | nil => rfl
      | cons s ss => exact ih ss (submatAssign X s s B)

/-- Claim C8: `copy_to` writes each stored block back into the destination
dense matrix at that block's row and column index sets, in partition
order, and leaves every entry outside all blocks unchanged (it does not
zero them); the same holds for the symmetric map, whose single index set
addresses both rows and columns. -/
theorem C8_copy_to (zeroB : ℕ → ℕ → ℚ) (blocks : List (ℕ → ℕ → ℚ))
    (im : List (List ℕ × List ℕ)) (sets : List (List ℕ)) (X : ℕ → ℕ → ℚ) :
    ((∀ p q : ℕ, (∀ rc ∈ im, p ∉ rc.1 ∨ q ∉ rc.2) → copy_to blocks im X p q = X p q) ∧
     (im.Pairwise (fun rc1 rc2 => ∀ i, i ∈ rc1.1 → i ∉ rc2.1) →
       ∀ k, k < im.length → k < blocks.length →
       (im.getD k ([], [])).1.Nodup → (im.getD k ([], [])).2.Nodup →
       ∀ a b : ℕ, a < (im.getD k ([], [])).1.length →
         b < (im.getD k ([], [])).2.length →
         copy_to blocks im X
             ((im.getD k ([], [])).1.getD a 0) ((im.getD k ([], [])).2.getD b 0) =
           blocks.getD k zeroB a b)) ∧
    ((∀ p q : ℕ, (∀ s ∈ sets, p ∉ s ∨ q ∉ s) → symmap_copy_to blocks sets X p q = X p q) ∧
     ((sets.map (fun s => (s, s))).Pairwise
         (fun rc1 rc2 => ∀ i, i ∈ rc1.1 → i ∉ rc2.1) →
       ∀ k, k < sets.length → k < blocks.length →
       (sets.getD k []).Nodup →
       ∀ a b : ℕ, a < (sets.getD k []).length → b < (sets.getD k []).length →
         symmap_copy_to blocks sets X
             ((sets.getD k []).getD a 0) ((sets.getD k []).getD b 0) =
           blocks.getD k zeroB a b)) := by
  have hsym : symmap_copy_to blocks sets X =
      copy_to blocks (sets.map (fun s => (s, s))) X :=
    symmap_copy_to_eq blocks sets X
  have hgetD : ∀ k, k < sets.length →
      (sets.map (fun s => (s, s))).getD k ([], []) = (sets.getD k [], sets.getD k []) := by
    intro k hk
    rw [List.getD_eq_getElem _ _ (by simpa using hk), List.getD_eq_getElem _ _ hk,
      List.getElem_map]
  refine ⟨⟨?_, ?_⟩, ?_, ?_⟩
  · intro p q h
    exact copy_to_frame blocks im X p q h
  · intro hdisj k hkim hkb hnr hnc a b ha hb
    exact copy_to_at zeroB k blocks im X hkim hkb hnr hnc hdisj a b ha hb
  · intro p q h
    rw [hsym]
    apply copy_to_frame
    intro rc hrc
    obtain ⟨s, hs, rfl⟩ := List.mem_map.mp hrc
    exact h s hs
  · intro hdisj k hks hkb hnd a b ha hb
    rw [hsym]
    have h2 := copy_to_at zeroB k blocks (sets.map (fun s => (s, s))) X
      (by simpa using hks) hkb
      (by rw [hgetD k hks]; exact hnd) (by rw [hgetD k hks]; exact hnd) hdisj a b
      (by rw [hgetD k hks]; exact ha) (by rw [hgetD k hks]; exact hb)
    rw [hgetD k hks] at h2
    exact h2

/-- Witness for C8 at a concrete two-block map. -/
theorem C8_copy_to_witness :
    ((∀ p q : ℕ,
        (∀ rc ∈ ([([0], [1]), ([2], [3])] : List (List ℕ × List ℕ)),
          p ∉ rc.1 ∨ q ∉ rc.2) →
        copy_to [fun _ _ => 5, fun _ _ => 7] [([0], [1]), ([2], [3])] (fun _ _ => 0) p q =
          (fun _ _ => (0:ℚ)) p q) ∧
     (([([0], [1]), ([2], [3])] : List (List ℕ × List ℕ)).Pairwise
         (fun rc1 rc2 => ∀ i, i ∈ rc1.1 → i ∉ rc2.1) →
       ∀ k, k < ([([0], [1]), ([2], [3])] : List (List ℕ × List ℕ)).length →
       k < ([fun _ _ => 5, fun _ _ => 7] : List (ℕ → ℕ → ℚ)).length →
       (([([0], [1]), ([2], [3])] : List (List ℕ × List ℕ)).getD k ([], [])).1.Nodup →
       (([([0], [1]), ([2], [3])] : List (List ℕ × List ℕ)).getD k ([], [])).2.Nodup →
       ∀ a b : ℕ,
         a < (([([0], [1]), ([2], [3])] : List (List ℕ × List ℕ)).getD k ([], [])).1.length →
         b < (([([0], [1]), ([2], [3])] : List (List ℕ × List ℕ)).getD k ([], [])).2.length →
         copy_to [fun _ _ => 5, fun _ _ => 7] [([0], [1]), ([2], [3])] (fun _ _ => 0)
             ((([([0], [1]), ([2], [3])] : List (List ℕ × List ℕ)).getD k ([], [])).1.getD a 0)
             ((([([0], [1]), ([2], [3])] : List (List ℕ × List ℕ)).getD k ([], [])).2.getD b 0) =
           ([fun _ _ => 5, fun _ _ => 7] : List (ℕ → ℕ → ℚ)).getD k (fun _ _ => 0) a b)) ∧
    ((∀ p q : ℕ,
        (∀ s ∈ ([[0], [2]] : List (List ℕ)), p ∉ s ∨ q ∉ s) →
        symmap_copy_to [fun _ _ => 5, fun _ _ => 7] [[0], [2]] (fun _ _ => 0) p q =
          (fun _ _ => (0:ℚ)) p q) ∧
     ((([[0], [2]] : List (List ℕ)).map (fun s => (s, s))).Pairwise
         (fun rc1 rc2 => ∀ i, i ∈ rc1.1 → i ∉ rc2.1) →
       ∀ k, k < ([[0], [2]] : List (List ℕ)).length →
       k < ([fun _ _ => 5, fun _ _ => 7] : List (ℕ → ℕ → ℚ)).length →
       (([[0], [2]] : List (List ℕ)).getD k []).Nodup →
       ∀ a b : ℕ, a < (([[0], [2]] : List (List ℕ)).getD k []).length →
         b < (([[0], [2]] : List (List ℕ)).getD k []).length →
         symmap_copy_to [fun _ _ => 5, fun _ _ => 7] [[0], [2]] (fun _ _ => 0)
             ((([[0], [2]] : List (List ℕ)).getD k []).getD a 0)
             ((([[0], [2]] : List (List ℕ)).getD k []).getD b 0) =
           ([fun _ _ => 5, fun _ _ => 7] : List (ℕ → ℕ → ℚ)).getD k (fun _ _ => 0) a b)) :=
  C8_copy_to (fun _ _ => 0) [fun _ _ => 5, fun _ _ => 7]
    [([0], [1]), ([2], [3])] [[0], [2]] (fun _ _ => 0)

end FPS
